import Mathlib

/-!
Shallow embedding of `auto_update.py` (Bedrock-Server-Updater-Linux) and
verification of its specification claims.

Modelling conventions:
* Python strings handled character-wise (configuration lines, regex scanning)
  are modelled as `List Char`; file systems are association lists from names
  to entries; Python exceptions are modelled with `Except String`.
* Python `sorted` with a consistent key is modelled by the stable
  `List.insertionSort`; `sorted` under the (possibly inconsistent)
  `cmp_to_key(compare_version)` comparator is modelled by CPython's actual
  small-list algorithm (initial-run detection followed by binary insertion),
  which is exact for fewer than 64 elements and agrees with any stable sort
  whenever the comparator is consistent.

The file is organised as: all definitions first, then all theorems.
-/

namespace BedrockUpdater

/-! # Definitions -/

/-! ## Association lists (Python `dict` and directory listings) -/

def assocLookup {α β : Type} [DecidableEq α] : List (α × β) → α → Option β
  | [], _ => none
  | (k, v) :: rest, key => if k = key then some v else assocLookup rest key

def assocSet {α β : Type} [DecidableEq α] : List (α × β) → α → β → List (α × β)
  | [], key, val => [(key, val)]
  | (k, v) :: rest, key, val =>
      if k = key then (k, val) :: rest else (k, v) :: assocSet rest key val

def assocRemove {α β : Type} [DecidableEq α] (l : List (α × β)) (key : α) :
    List (α × β) :=
  l.filter (fun p => p.1 ≠ key)

/-! ## `compare_version` (auto_update.py lines 40-53)

The Python loop over `range(min(len v1, len v2))` returning on the first
strict inequality is rendered as structural recursion over both lists. -/

def compare_version : List Int → List Int → Int
  | [], _ => 0
  | _ :: _, [] => 0
  | a :: v1, b :: v2 =>
      if a < b then -1
      else if b < a then 1
      else compare_version v1 v2

/-! ## `extract_numbers` (auto_update.py lines 28-37)

The regular expression is assembled as in the source: the base pattern is
`\d+`; with `match_float` it becomes `\d*\.\d+|\d+`; with `match_sign` the
prefix `[-+]?` is prepended to the whole pattern, hence (by alternation
precedence) to its *first* alternative only.  `re.findall` scans left to
right, attempting the alternatives in order at each position and advancing
past each (always non-empty) match. -/

def takeDigits : List Char → List Char × List Char
  | [] => ([], [])
  | c :: rest =>
      if c.isDigit then (c :: (takeDigits rest).1, (takeDigits rest).2)
      else ([], c :: rest)

/-- `\d*\.\d+`: greedy digits, a literal dot, then at least one digit. -/
def matchFloatTail (cs : List Char) : Option (List Char × List Char) :=
  match takeDigits cs with
  | (d1, '.' :: r2) =>
      match takeDigits r2 with
      | ([], _) => none
      | (d2, r3) => some (d1 ++ '.' :: d2, r3)
  | _ => none

/-- `[-+]?\d*\.\d+` when `allowSign`, else `\d*\.\d+`.  When a sign character
is consumed and the tail fails, backtracking to the empty sign cannot succeed
(the sign character is neither a digit nor a dot), so the whole alternative
fails. -/
def matchFloat (allowSign : Bool) (cs : List Char) : Option (List Char × List Char) :=
  match cs with
  | [] => none
  | c :: rest =>
      if allowSign && (c == '-' || c == '+') then
        match matchFloatTail rest with
        | some (t, r) => some (c :: t, r)
        | none => none
      else matchFloatTail cs

/-- `[-+]?\d+` when `allowSign`, else `\d+`.  As above, a consumed sign must
be followed by at least one digit. -/
def matchInt (allowSign : Bool) (cs : List Char) : Option (List Char × List Char) :=
  match cs with
  | [] => none
  | c :: rest =>
      if allowSign && (c == '-' || c == '+') then
        match takeDigits rest with
        | ([], _) => none
        | (d, r) => some (c :: d, r)
      else
        match takeDigits cs with
        | ([], _) => none
        | (d, r) => some (d, r)

/-- One match attempt at the current position, per the assembled pattern:
with `match_float` the float alternative (optionally signed) is tried first,
then the *unsigned* integer alternative; without it, a single (optionally
signed) integer alternative. -/
def tryMatch (mf ms : Bool) (cs : List Char) : Option (List Char × List Char) :=
  if mf then
    match matchFloat ms cs with
    | some r => some r
    | none => matchInt false cs
  else matchInt ms cs

theorem takeDigits_snd_length (cs : List Char) :
    ((takeDigits cs).2).length ≤ cs.length := by
  induction cs with
  | nil => simp [takeDigits]
  | cons c rest ih =>
      by_cases h : c.isDigit
      · simp only [takeDigits, h, if_pos]
        exact Nat.le_succ_of_le ih
      · simp [takeDigits, h]

theorem takeDigits_fst_ne_nil_length (cs : List Char)
    (h : (takeDigits cs).1 ≠ []) : ((takeDigits cs).2).length < cs.length := by
  cases cs with
  | nil => simp [takeDigits] at h
  | cons c rest =>
      by_cases hd : c.isDigit
      · simp only [takeDigits, hd, if_pos]
        exact Nat.lt_succ_of_le (takeDigits_snd_length rest)
      · simp [takeDigits, hd] at h

theorem matchFloatTail_length {cs tok r : List Char}
    (h : matchFloatTail cs = some (tok, r)) : r.length < cs.length := by
  unfold matchFloatTail at h
  split at h
  case _ d1 r2 heq =>
    split at h
    case _ => simp at h
    case _ d2 r3 hne2 heq2 =>
      simp only [Option.some.injEq, Prod.mk.injEq] at h
      obtain ⟨-, hr⟩ := h
      subst hr
      have h1 : r3.length ≤ r2.length := by
        have := takeDigits_snd_length r2
        rw [heq2] at this
        exact this
      have h2 : ('.' :: r2).length ≤ cs.length := by
        have := takeDigits_snd_length cs
        rw [heq] at this
        exact this
      simp at h2
      omega
  case _ => simp at h

theorem matchInt_length {allowSign : Bool} {cs tok r : List Char}
    (h : matchInt allowSign cs = some (tok, r)) : r.length < cs.length := by
  unfold matchInt at h
  split at h
  case _ => simp at h
  case _ c rest =>
    split at h
    · split at h
      case _ => simp at h
      case _ d r' hne2 heq =>
        simp only [Option.some.injEq, Prod.mk.injEq] at h
        obtain ⟨-, hr⟩ := h
        subst hr
        have : r'.length ≤ rest.length := by
          have := takeDigits_snd_length rest
          rw [heq] at this
          exact this
        simp
        omega
    · split at h
      case _ => simp at h
      case _ d r' hne2 heq =>
        simp only [Option.some.injEq, Prod.mk.injEq] at h
        obtain ⟨-, hr⟩ := h
        subst hr
        have hfst : (takeDigits (c :: rest)).1 ≠ [] := by
          rw [heq]
          intro hc
          exact hne2 (by simpa using hc)
        have := takeDigits_fst_ne_nil_length (c :: rest) hfst
        rw [heq] at this
        exact this

theorem matchFloat_length {allowSign : Bool} {cs tok r : List Char}
    (h : matchFloat allowSign cs = some (tok, r)) : r.length < cs.length := by
  unfold matchFloat at h
  split at h
  case _ => simp at h
  case _ c rest =>
    split at h
    · split at h
      case _ t r' heq =>
        simp only [Option.some.injEq, Prod.mk.injEq] at h
        obtain ⟨-, hr⟩ := h
        subst hr
        have := matchFloatTail_length heq
        simp
        omega
      case _ => simp at h
    · exact matchFloatTail_length h

theorem tryMatch_length {mf ms : Bool} {cs tok r : List Char}
    (h : tryMatch mf ms cs = some (tok, r)) : r.length < cs.length := by
  unfold tryMatch at h
  split at h
  · split at h
    case _ p heq =>
      obtain ⟨t, r'⟩ := p
      simp only [Option.some.injEq, Prod.mk.injEq] at h
      obtain ⟨-, hr⟩ := h
      subst hr
      exact matchFloat_length heq
    case _ => exact matchInt_length h
  · exact matchInt_length h

def scanTokensGo (mf ms : Bool) : Nat → List Char → List (List Char)
  | 0, _ => []
  | _, [] => []
  | fuel + 1, c :: rest =>
      match tryMatch mf ms (c :: rest) with
      | some (tok, r) => tok :: scanTokensGo mf ms fuel r
      | none => scanTokensGo mf ms fuel rest

/-- The scan loop of `re.findall`; every step consumes at least one
character (`tryMatch_length`), so `cs.length` steps always suffice. -/
def scanTokens (mf ms : Bool) (cs : List Char) : List (List Char) :=
  scanTokensGo mf ms cs.length cs

/-- Value of a digit run, as Python `int` of a digit string. -/
def digitsToNat (d : List Char) : Nat :=
  d.foldl (fun n c => 10 * n + (c.toNat - '0'.toNat)) 0

/-- Python `int(tok)` for a token of shape `[-+]?\d+`. -/
def tokenToInt (tok : List Char) : Int :=
  match tok with
  | '-' :: d => -(digitsToNat d : Int)
  | '+' :: d => (digitsToNat d : Int)
  | d => (digitsToNat d : Int)

/-- Magnitude of an unsigned decimal token `\d*\.\d+` (or bare digits),
with the decimal value represented exactly as a rational. -/
def floatMagnitude (t : List Char) : ℚ :=
  let d1 := t.takeWhile (·.isDigit)
  match t.dropWhile (·.isDigit) with
  | '.' :: d2 => (digitsToNat d1 : ℚ) + (digitsToNat d2 : ℚ) / (10 : ℚ) ^ d2.length
  | _ => (digitsToNat d1 : ℚ)

/-- Python `float(tok)` for a token of shape `[-+]?\d*\.\d+`. -/
def floatTokenToRat (tok : List Char) : ℚ :=
  match tok with
  | '-' :: t => -(floatMagnitude t)
  | '+' :: t => floatMagnitude t
  | t => floatMagnitude t

/-- A Python number: `int` or `float` (floats of the form produced here are
finite decimals, represented exactly as rationals). -/
inductive PyNumber where
  | intVal (n : Int)
  | floatVal (q : ℚ)
deriving DecidableEq, Repr

/-- `float(match) if '.' in match else int(match)` (line 36). -/
def tokenValue (tok : List Char) : PyNumber :=
  if tok.contains '.' then .floatVal (floatTokenToRat tok) else .intVal (tokenToInt tok)

/-- `extract_numbers(string, match_float, match_sign)` (lines 28-37). -/
def extract_numbers (s : String) (match_float match_sign : Bool) : List PyNumber :=
  (scanTokens match_float match_sign s.data).map tokenValue

/-- The integer version vector extracted from a file or directory name:
`extract_numbers(name, match_float=False, match_sign=False)`, whose tokens
are bare digit runs, viewed at type `List Int` as the callers do. -/
def getVersion (s : String) : List Int :=
  (scanTokens false false s.data).map tokenToInt

/-! ### Token shapes (for stating the `extract_numbers` claims) -/

/-- `\d+` with no sign. -/
def isUnsignedIntToken (tok : List Char) : Bool :=
  !tok.isEmpty && tok.all (·.isDigit)

/-- Removal of one optional leading sign character. -/
def stripSign (tok : List Char) : List Char :=
  match tok with
  | c :: rest => if c == '-' || c == '+' then rest else tok
  | [] => tok

/-- `[-+]?\d*\.\d+`. -/
def isSignedFloatToken (tok : List Char) : Bool :=
  match (stripSign tok).dropWhile (·.isDigit) with
  | '.' :: d2 => !d2.isEmpty && d2.all (·.isDigit)
  | _ => false

/-- Interleaving of `n+1` gap strings with `n` tokens, to state that the
returned tokens occur disjointly, left to right, in the scanned string. -/
def interleave : List (List Char) → List (List Char) → List Char
  | [g], [] => g
  | g :: gs, t :: ts => g ++ t ++ interleave gs ts
  | _, _ => []

/-! ## CPython `sorted` under `cmp_to_key(compare_version)`

CPython's list sort on fewer than 64 elements detects an initial ascending
(or strictly descending, then reversed) run and binary-inserts the remaining
elements into it, using only `<` comparisons (`cmp(a,b) < 0` under
`cmp_to_key`).  This is reproduced exactly, since `compare_version` is not a
consistent comparator (prefix-equal vectors of different lengths compare
equal) and the resulting order is algorithm-defined. -/

def binsearchGo {α : Type} (lt : α → α → Bool) (arr : List α) (pivot : α) :
    Nat → Nat → Nat → Nat
  | 0, l, _ => l
  | fuel + 1, l, r =>
      if l < r then
        if lt pivot (arr.getD (l + (r - l) / 2) pivot) then
          binsearchGo lt arr pivot fuel l (l + (r - l) / 2)
        else binsearchGo lt arr pivot fuel (l + (r - l) / 2 + 1) r
      else l

/-- The binary-search loop of CPython's `binarysort`; the window `r - l`
shrinks by at least one per iteration, so `r - l` steps always suffice. -/
def binsearchPos {α : Type} (lt : α → α → Bool) (arr : List α) (pivot : α)
    (l r : Nat) : Nat :=
  binsearchGo lt arr pivot (r - l) l r

/-- Binary insertion of `pivot` into the sorted run, as in CPython's
`binarysort` (stable: equal elements are inserted after). -/
def binInsert {α : Type} (lt : α → α → Bool) (run : List α) (pivot : α) : List α :=
  let i := binsearchPos lt run pivot 0 run.length
  run.take i ++ pivot :: run.drop i

/-- Extension of an ascending initial run: continue while `¬ lt next prev`. -/
def ascRunSplit {α : Type} (lt : α → α → Bool) : α → List α → List α × List α
  | _, [] => ([], [])
  | prev, x :: rest =>
      if lt x prev then ([], x :: rest)
      else (x :: (ascRunSplit lt x rest).1, (ascRunSplit lt x rest).2)

/-- Extension of a strictly descending initial run: continue while `lt next prev`. -/
def descRunSplit {α : Type} (lt : α → α → Bool) : α → List α → List α × List α
  | _, [] => ([], [])
  | prev, x :: rest =>
      if lt x prev then (x :: (descRunSplit lt x rest).1, (descRunSplit lt x rest).2)
      else ([], x :: rest)

/-- CPython's sort for lists of fewer than 64 elements (`count_run` then
`binarysort`); agrees with every stable sort when `lt` is consistent. -/
def pySortSmall {α : Type} (lt : α → α → Bool) : List α → List α
  | [] => []
  | [x] => [x]
  | a :: b :: rest =>
      if lt b a then
        ((descRunSplit lt b rest).2).foldl (binInsert lt)
          ((a :: b :: (descRunSplit lt b rest).1).reverse)
      else
        ((ascRunSplit lt b rest).2).foldl (binInsert lt)
          (a :: b :: (ascRunSplit lt b rest).1)

/-- The strict order used by `sorted(..., key=cmp_to_key(compare_version))`. -/
def versionLt (a b : List Int) : Bool := compare_version a b < 0

/-! ## `delete_download_cache_files` (lines 293-325)

The directory is modelled as the list of its regular files' names in
`os.listdir` order.  Deletion decisions are per-file and independent, so the
surviving set is a filter of the listing. -/

def delete_download_cache_files (files : List String) (max_num : Int) : List String :=
  if max_num ≥ 0 then
    let all_versions := pySortSmall versionLt (files.map getVersion)
    if (all_versions.length : Int) > max_num then
      let keepList := all_versions.drop (all_versions.length - max_num.toNat)
      files.filter (fun f =>
        decide (0 < max_num) &&
          keepList.any (fun keep => compare_version keep (getVersion f) == 0))
    else files
  else files

/-! ## `delete_local_server_backup_files` (lines 327-348)

`sorted(files, key=lambda x: int(x.split('-')[0]), reverse=True)` uses a
consistent integer key, for which Python's stable sort is fully specified;
it is modelled by the stable `List.insertionSort` with the reflexive
descending-key relation (ties keep listing order, as in CPython). -/

def splitOnChar (sep : Char) : List Char → List (List Char)
  | [] => [[]]
  | c :: rest =>
      if c = sep then [] :: splitOnChar sep rest
      else
        match splitOnChar sep rest with
        | [] => [[c]]
        | g :: gs => (c :: g) :: gs

def trimChars (cs : List Char) : List Char :=
  (cs.dropWhile Char.isWhitespace).rdropWhile Char.isWhitespace

/-- Python `int(string)`: optional surrounding whitespace, optional sign,
then at least one digit; anything else raises `ValueError`. -/
def pyInt (cs : List Char) : Except String Int :=
  match trimChars cs with
  | '-' :: d =>
      if !d.isEmpty && d.all (·.isDigit) then .ok (-(digitsToNat d : Int))
      else .error "ValueError: int"
  | '+' :: d =>
      if !d.isEmpty && d.all (·.isDigit) then .ok (digitsToNat d : Int)
      else .error "ValueError: int"
  | d =>
      if !d.isEmpty && d.all (·.isDigit) then .ok (digitsToNat d : Int)
      else .error "ValueError: int"

/-- `int(x.split('-')[0])`, which may raise. -/
def backupKeyE (f : String) : Except String Int :=
  pyInt ((splitOnChar '-' f.data).headD [])

/-- Total view of the backup key, used for ordering once every file's key is
known to parse. -/
def backupKey (f : String) : Int :=
  match backupKeyE f with
  | .ok n => n
  | .error _ => 0

/-- Descending order on backup keys; reflexive, so `List.insertionSort`
keeps tied files in listing order, matching Python's stable sort. -/
def backupDescRel : String → String → Prop := fun a b => backupKey b ≤ backupKey a

instance : DecidableRel backupDescRel := fun a b =>
  inferInstanceAs (Decidable (backupKey b ≤ backupKey a))

instance : IsTotal String backupDescRel :=
  ⟨fun a b => le_total (backupKey b) (backupKey a)⟩

instance : IsTrans String backupDescRel :=
  ⟨fun _ _ _ hab hbc => le_trans hbc hab⟩

def delete_local_server_backup_files (files : List String) (max_num : Int) :
    Except String (List String) :=
  if max_num ≥ 0 then do
    let _ ← files.mapM backupKeyE
    let all_files := List.insertionSort backupDescRel files
    if (all_files.length : Int) > max_num then
      pure (files.filter (fun f => decide (f ∉ all_files.drop max_num.toNat)))
    else pure files
  else pure files

/-! ## `update_server_properties` (lines 191-232)

Configuration lines are modelled without their trailing newline, so the
blank line `"\n"` is the empty character list, and the written key line
`f"{key}={value}\n"` is `key ++ '=' :: value`. -/

def isSkipLine (line : List Char) : Bool :=
  (line.headD ' ' == '#') || line.isEmpty

/-- `key, value = line.split("=")`: raises `ValueError` unless the split
has exactly two parts (i.e. the line contains exactly one `=`). -/
def parseKV (line : List Char) : Except String (List Char × List Char) :=
  match splitOnChar '=' line with
  | [k, v] => .ok (trimChars k, trimChars v)
  | _ => .error "ValueError: unpack"

abbrev PropsDict := List (List Char × List Char)

/-- One iteration of the parse loop: skip comments and blanks, otherwise
split into a key/value pair and store it (later lines win). -/
def readPropsStep (d : PropsDict) (line : List Char) : Except String PropsDict :=
  if isSkipLine line then pure d
  else do
    let kv ← parseKV line
    pure (assocSet d kv.1 kv.2)

/-- The parse loop shared by lines 200-204 and 206-211. -/
def readProps (lines : List (List Char)) : Except String PropsDict :=
  lines.foldlM readPropsStep []

/-- Lexicographic order on character lists (Python string `<`). -/
def charListLe : List Char → List Char → Bool
  | [], _ => true
  | _ :: _, [] => false
  | a :: as, b :: bs =>
      if a < b then true
      else if b < a then false
      else charListLe as bs

/-- One iteration of the key-resolution loop (lines 215-223): key in both
documents → source value; key only in source → dropped; key only in target
→ target value. -/
def resolveStep (src tgt : PropsDict) (res : PropsDict) (k : List Char) : PropsDict :=
  match assocLookup src k, assocLookup tgt k with
  | some v, some _ => assocSet res k v
  | some _, none => res
  | none, some v => assocSet res k v
  | none, none => res

/-- Lines 213-223: iterate the sorted union of key sets and resolve each
key. -/
def buildResult (src tgt : PropsDict) : PropsDict :=
  (List.insertionSort (fun a b => charListLe a b = true)
      ((src.map Prod.fst ++ tgt.map Prod.fst).dedup)).foldl (resolveStep src tgt) []

/-- The value the reconciliation assigns to key `k`: the target's keys keep
a value (source's if also present there), keys absent from the target get
none. -/
def resolvedValue (src tgt : PropsDict) (k : List Char) : Option (List Char) :=
  match assocLookup tgt k with
  | some tv => some ((assocLookup src k).getD tv)
  | none => none


/-- `line.split("=")[0].strip()` (line 229). -/
def lineKey (line : List Char) : List Char :=
  trimChars ((splitOnChar '=' line).headD [])
/-- The proved per-line characterization of the write-back (theorem
`update_server_properties_spec`): comments and blanks verbatim, key lines
re-emitted with their resolved value. -/
def rewriteLine (src tgt : PropsDict) (line : List Char) : List Char :=
  if isSkipLine line then line
  else lineKey line ++ '=' :: ((resolvedValue src tgt (lineKey line)).getD [])

/-- Lines 227-232: rewrite one target line (comments and blanks verbatim;
key lines as `key=result[key]`, where a missing key raises `KeyError`). -/
def writeLine (result : PropsDict) (line : List Char) : Except String (List Char) :=
  if isSkipLine line then pure line
  else
    match assocLookup result (lineKey line) with
    | some v => pure (lineKey line ++ '=' :: v)
    | none => .error "KeyError"

/-- `update_server_properties(source_file, target_file)` as a function from
the two files' lines to the rewritten target lines. -/
def update_server_properties (sourceLines targetLines : List (List Char)) :
    Except String (List (List Char)) := do
  let src ← readProps sourceLines
  let tgt ← readProps targetLines
  targetLines.mapM (writeLine (buildResult src tgt))

/-! ## File trees and `update_server` (lines 19, 235-290)

A file is its list of configuration lines; a directory is an association
list from entry names to entries.  Top-level directories live in a `Store`
keyed by path strings, so that the source's path-string comparisons
(`target_server_dir != local_server_dir`) and aliasing (`target_dir` unset
means in-place) are represented directly. -/

inductive FSEntry where
  | file (lines : List (List Char))
  | dir (entries : List (String × FSEntry))

abbrev Dir := List (String × FSEntry)

abbrev Store := List (String × Dir)

def storeGet (st : Store) (p : String) : Option Dir := assocLookup st p

def storeSet (st : Store) (p : String) (d : Dir) : Store := assocSet st p d

def storeRemove (st : Store) (p : String) : Store := assocRemove st p

/-- `SPECIAL_PATHS` (line 19). -/
def SPECIAL_PATHS : List String :=
  ["worlds", "allowlist.json", "permissions.json", "server.properties"]

mutual

/-- Copying one named entry onto an optional existing destination entry:
`shutil.copy2` for files (which copies *into* an existing directory of the
same name, and fails if the contained name is itself a directory) and
`shutil.copytree(..., dirs_exist_ok=True)` for directories (which merges
into an existing directory and fails on an existing regular file). -/
def copyEntry (name : String) : FSEntry → Option FSEntry → Except String FSEntry
  | .file c, some (.dir ds) =>
      match assocLookup ds name with
      | some (.dir _) => .error "IsADirectoryError"
      | _ => .ok (.dir (assocSet ds name (.file c)))
  | .file c, _ => .ok (.file c)
  | .dir _, some (.file _) => .error "FileExistsError"
  | .dir es, some (.dir ds) => (mergeDir es ds).map .dir
  | .dir es, none => (mergeDir es []).map .dir

/-- The recursive body of `shutil.copytree(..., dirs_exist_ok=True)`. -/
def mergeDir : List (String × FSEntry) → List (String × FSEntry) →
    Except String (List (String × FSEntry))
  | [], acc => .ok acc
  | (n, e) :: rest, acc => do
      let e' ← copyEntry n e (assocLookup acc n)
      mergeDir rest (assocSet acc n e')

end

/-- `sorted(os.listdir(d))`. -/
def sortedNames (d : Dir) : List String :=
  List.insertionSort (fun a b : String => a ≤ b) (d.map Prod.fst)

/-- Copy the entry `name` of the directory at `srcPath` into the directory
at `tgtPath` (lines 250-255 and 261-266). -/
def copyIntoStore (st : Store) (srcPath tgtPath name : String) : Except String Store :=
  match storeGet st srcPath with
  | none => .error "FileNotFoundError"
  | some src =>
      match assocLookup src name with
      | none => .error "FileNotFoundError"
      | some e => do
          let tgt := (storeGet st tgtPath).getD []
          let e' ← copyEntry name e (assocLookup tgt name)
          pure (storeSet st tgtPath (assocSet tgt name e'))

/-- Step 1 (lines 247-256): copy every non-special release entry, in sorted
name order, into the target directory. -/
def copyReleaseFiles (st : Store) (latestPath targetPath : String) :
    Except String Store :=
  match storeGet st latestPath with
  | none => .error "FileNotFoundError"
  | some latest =>
      (sortedNames latest).foldlM
        (fun st name =>
          if SPECIAL_PATHS.contains name then pure st
          else copyIntoStore st latestPath targetPath name)
        st

/-- Step 2 (lines 258-267): when the target is a distinct directory, copy
the special paths other than `server.properties` from the old installation.
(`SPECIAL_PATHS - {"server.properties"}` is a Python set; its iteration
order does not affect the result, the three names being distinct.) -/
def copySpecialFiles (st : Store) (localPath targetPath : String) :
    Except String Store :=
  if targetPath ≠ localPath then
    ["worlds", "allowlist.json", "permissions.json"].foldlM
      (fun st name => copyIntoStore st localPath targetPath name) st
  else pure st

/-- Reading `<path>/server.properties` as a regular file. -/
def readPropFile (st : Store) (path : String) : Except String (List (List Char)) :=
  match storeGet st path with
  | none => .error "FileNotFoundError"
  | some d =>
      match assocLookup d "server.properties" with
      | some (.file ls) => pure ls
      | some (.dir _) => .error "IsADirectoryError"
      | none => .error "FileNotFoundError"

/-- `shutil.copy2` of the release's properties file onto the temporary path
(line 274): fails if that path is an existing directory. -/
def writeTempFile (tgt0 : Dir) (latestProp : List (List Char)) : Except String Dir :=
  match assocLookup tgt0 "server.properties.temp" with
  | some (.dir _) => .error "IsADirectoryError"
  | _ => .ok (assocSet tgt0 "server.properties.temp" (.file latestProp))

/-- Opening the temporary file for the reconciliation (line 275). -/
def readTempFile (tgt : Dir) : Except String (List (List Char)) :=
  match assocLookup tgt "server.properties.temp" with
  | some (.file ls) => .ok ls
  | _ => .error "FileNotFoundError"

/-- Lines 278-279: `os.remove` of an existing `server.properties` (raises
`IsADirectoryError` on a directory). -/
def removeExistingProps (tgt : Dir) : Except String Dir :=
  match assocLookup tgt "server.properties" with
  | some (.file _) => .ok (assocRemove tgt "server.properties")
  | some (.dir _) => .error "IsADirectoryError"
  | none => .ok tgt

/-- Step 3 (lines 269-281): copy the release's `server.properties` to
`server.properties.temp` in the target, reconcile it against the local
file, then remove any existing `server.properties` and rename the
temporary file over it. -/
def updatePropertiesStep (st : Store) (localPath latestPath targetPath : String) :
    Except String Store := do
  let latestProp ← readPropFile st latestPath
  let tgt1 ← writeTempFile ((storeGet st targetPath).getD []) latestProp
  let st1 := storeSet st targetPath tgt1
  let localProp ← readPropFile st1 localPath
  let tempLines ← readTempFile ((storeGet st1 targetPath).getD [])
  let newLines ← update_server_properties localProp tempLines
  let tgt2 := assocSet ((storeGet st1 targetPath).getD [])
    "server.properties.temp" (.file newLines)
  let tgt3 ← removeExistingProps tgt2
  let tgt4 := assocSet (assocRemove tgt3 "server.properties.temp")
    "server.properties" (.file newLines)
  pure (storeSet st1 targetPath tgt4)

/-- Step 4 (lines 283-286): `shutil.rmtree(local_server_dir)`, guarded by
`target_server_dir != local_server_dir`.  Returns whether the old tree was
deleted. -/
def removeOldServer (st : Store) (localPath targetPath : String) :
    Except String (Store × Bool) :=
  if targetPath ≠ localPath then
    match storeGet st localPath with
    | none => .error "FileNotFoundError"
    | some _ => .ok (storeRemove st localPath, true)
  else .ok (st, false)

/-- Step 5 (lines 288-290): `shutil.rmtree(latest_server_dir)`. -/
def removeLatestDir (st : Store) (latestPath : String) : Except String Store :=
  match storeGet st latestPath with
  | none => .error "FileNotFoundError"
  | some _ => .ok (storeRemove st latestPath)

/-- `update_server(local_server_dir, latest_server_dir, target_server_dir)`
(lines 235-290).  `targetOpt = none` is the default unset target (line 243:
in-place update). -/
def ensureTarget (st : Store) (targetPath : String) : Store :=
  match storeGet st targetPath with
  | some _ => st
  | none => storeSet st targetPath []

def update_server (st : Store) (localPath latestPath : String)
    (targetOpt : Option String) : Except String (Store × Bool) := do
  let targetPath := targetOpt.getD localPath
  let st := ensureTarget st targetPath
  let st ← copyReleaseFiles st latestPath targetPath
  let st ← copySpecialFiles st localPath targetPath
  let st ← updatePropertiesStep st localPath latestPath targetPath
  let (st, deleted) ← removeOldServer st localPath targetPath
  let st ← removeLatestDir st latestPath
  pure (st, deleted)

/-! ## Cached-archive failure handling in `download_and_extract_latest_server`
(lines 101-133, 141-147) -/

inductive PathState where
  | absent
  | regularFile
  | directory
deriving DecidableEq, Repr

/-- `shutil.rmtree`: removes a directory; raises `NotADirectoryError` on a
regular file and `FileNotFoundError` on a missing path. -/
def rmtreePath : PathState → Except String PathState
  | .directory => .ok .absent
  | .regularFile => .error "NotADirectoryError"
  | .absent => .error "FileNotFoundError"

structure DownloadState where
  downloadFile : PathState
  extractDir : PathState
  freshDownloadAttempted : Bool
deriving DecidableEq, Repr

/-- Lines 117-133: request the archive; on HTTP 200 write the archive file
and extract it (success), otherwise only log (failure). -/
def performFreshDownload (statusOk : Bool) (st : DownloadState) :
    DownloadState × Bool :=
  let st := {st with freshDownloadAttempted := true}
  if statusOk then
    ({st with downloadFile := .regularFile, extractDir := .directory}, true)
  else (st, false)

/-- Lines 101-133, entered once a newer remote version has been detected:
the cached-archive branch with its `except` recovery handler (lines
112-114), else the fresh-download branch.  `zipValid` abstracts whether
`ZipFile(download_file)` opens and extracts; when it fails at open, the
extraction directory has not been created.  An exception escaping this
block is caught by the function's broad `except` (line 141), after which
`success` is still `False` and the function returns `None` with no further
filesystem action; the returned `Bool` is `success`. -/
def handleDownloadAndExtract (zipValid statusOk : Bool) (st : DownloadState) :
    DownloadState × Bool :=
  if st.downloadFile = .regularFile then
    if zipValid then ({st with extractDir := .directory}, true)
    else
      match rmtreePath st.downloadFile with
      | .error _ => (st, false)
      | .ok df =>
          match rmtreePath st.extractDir with
          | .error _ => ({st with downloadFile := df}, false)
          | .ok ed =>
              performFreshDownload statusOk
                {st with downloadFile := df, extractDir := ed}
  else performFreshDownload statusOk st

/-! ## `backup_local_server` (lines 150-188) -/

/-- The effect of `backup_local_server` on the backup directory, whose
files are modelled as named archives with contents in `α`:
`target_name = f"{now_time}-{basename(server_dir)}.{type}"`; an existing
file of that name is removed first (lines 162-165), then a fresh archive
(`archive`) is written under that name. -/
def backup_local_server {α : Type} (files : List (String × α))
    (now_time base ext : String) (archive : α) : List (String × α) :=
  let target := now_time ++ "-" ++ base ++ "." ++ ext
  let files' :=
    if files.any (fun p => p.1 == target) then files.filter (fun p => p.1 != target)
    else files
  files' ++ [(target, archive)]

/-- The entry stored for protected path `name` in the top-level directory at
`path` (`none` when the directory or the entry is absent). -/
def protectedEntry (st : Store) (path name : String) : Option FSEntry :=
  (storeGet st path).bind (fun d => assocLookup d name)

/-- Key-line keys of the release configuration document survive rewriting:
no non-comment, non-blank line has a trimmed key that begins with the
comment marker (such a key line would be rewritten to a line that the next
run parses as a comment). -/
def keysStayKeys (lines : List (List Char)) : Bool :=
  lines.all (fun line =>
    isSkipLine line || !((lineKey line).headD ' ' == '#'))

/-! # Theorems -/

/-! ## Monadic plumbing for `Except` -/

theorem except_bind_ok {α β : Type} {x : Except String α} {f : α → Except String β}
    {r : β} (h : (x >>= f) = .ok r) : ∃ a, x = .ok a ∧ f a = .ok r := by
  cases x with
  | ok a => exact ⟨a, rfl, h⟩
  | error e => simp [Bind.bind, Except.bind] at h

theorem except_map_ok {α β : Type} {x : Except String α} {f : α → β} {r : β}
    (h : x.map f = .ok r) : ∃ a, x = .ok a ∧ f a = r := by
  cases x with
  | ok a =>
      refine ⟨a, rfl, ?_⟩
      simpa [Except.map] using h
  | error e => simp [Except.map] at h

theorem mapM_eq_ok_map {α β : Type} {f : α → Except String β} {g : α → β}
    (l : List α) (h : ∀ a ∈ l, f a = .ok (g a)) : l.mapM f = .ok (l.map g) := by
  induction l with
  | nil => rfl
  | cons x xs ih =>
      rw [List.mapM_cons]
      have hx := h x (List.mem_cons_self x xs)
      have hxs := ih (fun a ha => h a (List.mem_cons_of_mem x ha))
      rw [hx, hxs]
      rfl

theorem mapM_ok_length {α β : Type} {f : α → Except String β} {l : List α}
    {out : List β} (h : l.mapM f = .ok out) : out.length = l.length := by
  induction l generalizing out with
  | nil =>
      rw [List.mapM_nil] at h
      simp [pure, Except.pure] at h
      simp [← h]
  | cons x xs ih =>
      rw [List.mapM_cons] at h
      obtain ⟨b, hb, h⟩ := except_bind_ok h
      obtain ⟨bs, hbs, h⟩ := except_bind_ok h
      have : out = b :: bs := by
        simpa [pure, Except.pure] using h.symm
      subst this
      simp [ih hbs]

theorem mapM_ok_pointwise {α β : Type} {f : α → Except String β} {l : List α}
    {out : List β} (h : l.mapM f = .ok out) (dfa : α) (dfb : β) :
    ∀ i, i < l.length → f (l.getD i dfa) = .ok (out.getD i dfb) := by
  induction l generalizing out with
  | nil => intro i hi; simp at hi
  | cons x xs ih =>
      rw [List.mapM_cons] at h
      obtain ⟨b, hb, h⟩ := except_bind_ok h
      obtain ⟨bs, hbs, h⟩ := except_bind_ok h
      have : out = b :: bs := by
        simpa [pure, Except.pure] using h.symm
      subst this
      intro i hi
      cases i with
      | zero => simpa using hb
      | succ n =>
          have := ih hbs n (by simpa using Nat.lt_of_succ_lt_succ hi)
          simpa using this

theorem mapM_ok_of_forall {α β : Type} {f : α → Except String β} (l : List α)
    (h : ∀ a ∈ l, ∃ b, f a = .ok b) : ∃ out, l.mapM f = .ok out := by
  induction l with
  | nil => exact ⟨[], rfl⟩
  | cons x xs ih =>
      obtain ⟨b, hb⟩ := h x (List.mem_cons_self x xs)
      obtain ⟨bs, hbs⟩ := ih (fun a ha => h a (List.mem_cons_of_mem x ha))
      refine ⟨b :: bs, ?_⟩
      rw [List.mapM_cons, hb, hbs]
      rfl

/-! ## Association list laws -/

theorem assocLookup_assocSet_self {α β : Type} [DecidableEq α]
    (l : List (α × β)) (k : α) (v : β) : assocLookup (assocSet l k v) k = some v := by
  induction l with
  | nil => simp [assocSet, assocLookup]
  | cons p rest ih =>
      obtain ⟨k', v'⟩ := p
      by_cases h : k' = k
      · subst h; simp [assocSet, assocLookup]
      · simp [assocSet, assocLookup, h, ih]

theorem assocLookup_assocSet_ne {α β : Type} [DecidableEq α]
    (l : List (α × β)) (k k' : α) (v : β) (h : k ≠ k') :
    assocLookup (assocSet l k v) k' = assocLookup l k' := by
  induction l with
  | nil => simp [assocSet, assocLookup, h]
  | cons p rest ih =>
      obtain ⟨a, b⟩ := p
      by_cases ha : a = k
      · subst ha; simp [assocSet, assocLookup, h]
      · simp [assocSet, assocLookup, ha, ih]

theorem assocLookup_assocRemove_self {α β : Type} [DecidableEq α]
    (l : List (α × β)) (k : α) : assocLookup (assocRemove l k) k = none := by
  induction l with
  | nil => simp [assocRemove, assocLookup]
  | cons p rest ih =>
      obtain ⟨a, b⟩ := p
      by_cases ha : a = k
      · subst ha; simpa [assocRemove, assocLookup] using ih
      · simpa [assocRemove, assocLookup, ha] using ih

theorem assocLookup_assocRemove_ne {α β : Type} [DecidableEq α]
    (l : List (α × β)) (k k' : α) (h : k ≠ k') :
    assocLookup (assocRemove l k) k' = assocLookup l k' := by
  induction l with
  | nil => simp [assocRemove, assocLookup]
  | cons p rest ih =>
      obtain ⟨a, b⟩ := p
      by_cases ha : a = k
      · subst ha; simpa [assocRemove, assocLookup, h] using ih
      · by_cases hb : a = k'
        · subst hb; simp [assocRemove, assocLookup, ha]
        · simpa [assocRemove, assocLookup, ha, hb] using ih

/-! ## `compare_version` facts -/

theorem compare_version_nil_left (v : List Int) : compare_version [] v = 0 := by
  cases v <;> rfl

theorem compare_version_refl (v : List Int) : compare_version v v = 0 := by
  induction v with
  | nil => rfl
  | cons a t ih => simp [compare_version, ih]

/-- If the two vectors agree on their shared prefix, the comparison is 0. -/
theorem compare_version_eq_zero_of_agree (v1 v2 : List Int)
    (h : ∀ i, i < min v1.length v2.length → v1.get? i = v2.get? i) :
    compare_version v1 v2 = 0 := by
  induction v1 generalizing v2 with
  | nil => exact compare_version_nil_left v2
  | cons a t ih =>
      cases v2 with
      | nil => rfl
      | cons b t2 =>
          have h0 := h 0 (by simp)
          simp [List.get?] at h0
          subst h0
          have ht : ∀ i, i < min t.length t2.length → t.get? i = t2.get? i := by
            intro i hi
            have := h (i + 1) (by simpa using Nat.succ_lt_succ hi)
            simpa [List.get?] using this
          simp [compare_version, ih t2 ht]

/-- The first differing shared component decides the comparison. -/
theorem compare_version_first_diff (v1 v2 : List Int) (i : Nat)
    (hi : i < min v1.length v2.length)
    (hagree : ∀ j, j < i → v1.get? j = v2.get? j)
    (hdiff : v1.get? i ≠ v2.get? i) :
    compare_version v1 v2 =
      if v1.getD i 0 < v2.getD i 0 then -1 else 1 := by
  induction v1 generalizing v2 i with
  | nil => simp at hi
  | cons a t ih =>
      cases v2 with
      | nil => simp at hi
      | cons b t2 =>
          cases i with
          | zero =>
              simp [List.get?] at hdiff
              by_cases hlt : a < b
              · simp [compare_version, hlt, List.getD]
              · have hgt : b < a := lt_of_le_of_ne (not_lt.mp hlt) (Ne.symm hdiff)
                simp [compare_version, hlt, hgt, List.getD, not_lt.mpr hgt.le]
          | succ n =>
              have h0 := hagree 0 (Nat.succ_pos n)
              simp [List.get?] at h0
              subst h0
              have hn : n < min t.length t2.length := by
                simp at hi ⊢
                omega
              have hagree' : ∀ j, j < n → t.get? j = t2.get? j := by
                intro j hj
                have := hagree (j + 1) (Nat.succ_lt_succ hj)
                simpa [List.get?] using this
              have hdiff' : t.get? n ≠ t2.get? n := by
                simpa [List.get?] using hdiff
              simp [compare_version, List.getD, ih t2 n hn hagree' hdiff']

/-! ## `splitOnChar`, `trimChars` and `parseKV` facts -/

theorem splitOnChar_ne_nil (sep : Char) (cs : List Char) :
    splitOnChar sep cs ≠ [] := by
  induction cs with
  | nil => simp [splitOnChar]
  | cons c rest ih =>
      by_cases h : c = sep
      · simp [splitOnChar, h]
      · rcases hs : splitOnChar sep rest with _ | ⟨g, gs⟩
        · exact absurd hs ih
        · simp [splitOnChar, h, hs]

theorem splitOnChar_length (sep : Char) (cs : List Char) :
    (splitOnChar sep cs).length = cs.count sep + 1 := by
  induction cs with
  | nil => simp [splitOnChar]
  | cons c rest ih =>
      by_cases h : c = sep
      · subst h
        simp [splitOnChar, List.count_cons, ih]
      · rcases hs : splitOnChar sep rest with _ | ⟨g, gs⟩
        · exact absurd hs (splitOnChar_ne_nil sep rest)
        · rw [hs] at ih
          simp only [List.length_cons] at ih
          simp [splitOnChar, h, hs, List.count_cons, Ne.symm h]
          omega

theorem splitOnChar_parts_no_sep (sep : Char) (cs : List Char) :
    ∀ part ∈ splitOnChar sep cs, sep ∉ part := by
  induction cs with
  | nil =>
      intro part hp
      simp [splitOnChar] at hp
      simp [hp]
  | cons c rest ih =>
      intro part hp
      by_cases h : c = sep
      · subst h
        simp [splitOnChar] at hp
        rcases hp with hp | hp
        · simp [hp]
        · exact ih part hp
      · rcases hs : splitOnChar sep rest with _ | ⟨g, gs⟩
        · exact absurd hs (splitOnChar_ne_nil sep rest)
        · simp [splitOnChar, h, hs] at hp
          rcases hp with hp | hp
          · subst hp
            intro hmem
            rcases List.mem_cons.mp hmem with hc | hg
            · exact h hc.symm
            · exact ih g (by simp [hs]) hg
          · exact ih part (by simp [hs, hp])

theorem splitOnChar_of_not_mem {sep : Char} {cs : List Char} (h : sep ∉ cs) :
    splitOnChar sep cs = [cs] := by
  induction cs with
  | nil => simp [splitOnChar]
  | cons c rest ih =>
      have hc : c ≠ sep := fun hc => h (hc ▸ List.mem_cons_self c rest)
      have hrest : sep ∉ rest := fun hr => h (List.mem_cons_of_mem c hr)
      simp [splitOnChar, hc, ih hrest]

theorem splitOnChar_append_sep {sep : Char} {k v : List Char}
    (hk : sep ∉ k) (hv : sep ∉ v) : splitOnChar sep (k ++ sep :: v) = [k, v] := by
  induction k with
  | nil => simp [splitOnChar, splitOnChar_of_not_mem hv]
  | cons c k' ih =>
      have hc : c ≠ sep := fun hc => hk (hc ▸ List.mem_cons_self c k')
      have hk' : sep ∉ k' := fun hr => hk (List.mem_cons_of_mem c hr)
      have hrec := ih hk'
      show splitOnChar sep (c :: (k' ++ sep :: v)) = [c :: k', v]
      simp [splitOnChar, hc, hrec]

theorem mem_trimChars {a : Char} {cs : List Char} (h : a ∈ trimChars cs) : a ∈ cs := by
  unfold trimChars at h
  unfold List.rdropWhile at h
  rw [List.mem_reverse] at h
  have h1 := (List.dropWhile_sublist (l := (List.dropWhile Char.isWhitespace cs).reverse)
    Char.isWhitespace).subset h
  rw [List.mem_reverse] at h1
  exact (List.dropWhile_sublist Char.isWhitespace).subset h1

theorem rdropWhile_head_keep {p : Char → Bool} {l : List Char} {a : Char} {t : List Char}
    (h : List.rdropWhile p l = a :: t) : l.head? = some a := by
  induction l using List.reverseRecOn with
  | nil => simp [List.rdropWhile] at h
  | append_singleton l' x ih =>
      rw [List.rdropWhile_concat] at h
      by_cases hp : p x = true
      · rw [if_pos hp] at h
        have hl' : l'.head? = some a := ih h
        cases l' with
        | nil => simp at hl'
        | cons b t' => simpa using hl'
      · rw [if_neg hp] at h
        cases l' with
        | nil =>
            simp at h
            simp [h.1]
        | cons b t' =>
            have : b = a := by
              have := congrArg List.head? h
              simpa using this
            simp [this]

theorem trimChars_idem (cs : List Char) : trimChars (trimChars cs) = trimChars cs := by
  unfold trimChars
  have h1 : List.dropWhile Char.isWhitespace
      ((List.dropWhile Char.isWhitespace cs).rdropWhile Char.isWhitespace) =
      (List.dropWhile Char.isWhitespace cs).rdropWhile Char.isWhitespace := by
    rcases hr : (List.dropWhile Char.isWhitespace cs).rdropWhile Char.isWhitespace with
      _ | ⟨a, t⟩
    · simp
    · have ha : (List.dropWhile Char.isWhitespace cs).head? = some a :=
        rdropWhile_head_keep hr
      have hnw : ¬ Char.isWhitespace a := by
        rcases hd : List.dropWhile Char.isWhitespace cs with _ | ⟨b, t'⟩
        · rw [hd] at ha; simp at ha
        · rw [hd] at ha
          simp at ha
          subst ha
          have hne : List.dropWhile Char.isWhitespace cs ≠ [] := by simp [hd]
          have := List.head_dropWhile_not Char.isWhitespace cs hne
          simpa [hd] using this
      simp [List.dropWhile_cons, hnw]
  rw [h1, List.rdropWhile_idempotent]

theorem parseKV_ok_shape {line : List Char} {kv : List Char × List Char}
    (h : parseKV line = .ok kv) :
    ∃ k0 v0, splitOnChar '=' line = [k0, v0] ∧ kv = (trimChars k0, trimChars v0) := by
  unfold parseKV at h
  split at h
  case _ k0 v0 heq =>
    refine ⟨k0, v0, heq, ?_⟩
    simpa using h.symm
  case _ => simp at h

theorem parseKV_ok_key {line : List Char} {kv : List Char × List Char}
    (h : parseKV line = .ok kv) : kv.1 = lineKey line := by
  obtain ⟨k0, v0, heq, hkv⟩ := parseKV_ok_shape h
  subst hkv
  simp [lineKey, heq]

theorem parseKV_ok_no_sep {line : List Char} {kv : List Char × List Char}
    (h : parseKV line = .ok kv) :
    ('=' ∉ kv.1 ∧ '=' ∉ kv.2) ∧ (trimChars kv.1 = kv.1 ∧ trimChars kv.2 = kv.2) := by
  obtain ⟨k0, v0, heq, hkv⟩ := parseKV_ok_shape h
  have hparts := splitOnChar_parts_no_sep '=' line
  have hk0 : '=' ∉ k0 := hparts k0 (by simp [heq])
  have hv0 : '=' ∉ v0 := hparts v0 (by simp [heq])
  subst hkv
  exact ⟨⟨fun hm => hk0 (mem_trimChars hm), fun hm => hv0 (mem_trimChars hm)⟩,
         trimChars_idem k0, trimChars_idem v0⟩

theorem parseKV_ok_of_count {line : List Char} (h : line.count '=' = 1) :
    ∃ kv, parseKV line = .ok kv := by
  have hlen : (splitOnChar '=' line).length = 2 := by
    rw [splitOnChar_length, h]
  rcases hs : splitOnChar '=' line with _ | ⟨a, _ | ⟨b, _ | _⟩⟩ <;>
    simp [hs] at hlen ⊢
  · simp [parseKV, hs]

theorem parseKV_error_of_count {line : List Char} (h : line.count '=' ≠ 1) :
    ∃ e, parseKV line = .error e := by
  have hlen : (splitOnChar '=' line).length ≠ 2 := by
    rw [splitOnChar_length]
    omega
  unfold parseKV
  rcases hs : splitOnChar '=' line with _ | ⟨a, _ | ⟨b, _ | _⟩⟩ <;>
    simp [hs] at hlen ⊢

/-! ## `readProps` fold facts -/

theorem assocLookup_isSome_iff_mem {α β : Type} [DecidableEq α]
    (l : List (α × β)) (k : α) :
    (assocLookup l k).isSome ↔ k ∈ l.map Prod.fst := by
  induction l with
  | nil => simp [assocLookup]
  | cons p rest ih =>
      obtain ⟨a, b⟩ := p
      by_cases h : a = k
      · subst h; simp [assocLookup]
      · simp [assocLookup, h, ih, Ne.symm h]

theorem assocLookup_isSome_assocSet {α β : Type} [DecidableEq α]
    {l : List (α × β)} {k' : α} (k : α) (v : β)
    (h : (assocLookup l k').isSome) : (assocLookup (assocSet l k v) k').isSome := by
  by_cases hk : k = k'
  · subst hk; simp [assocLookup_assocSet_self]
  · rwa [assocLookup_assocSet_ne l k k' v hk]

theorem readProps_fold_ok_of_wf (lines : List (List Char))
    (h : ∀ line ∈ lines, isSkipLine line = true ∨ line.count '=' = 1) :
    ∀ acc, ∃ d, lines.foldlM readPropsStep acc = .ok d := by
  induction lines with
  | nil => intro acc; exact ⟨acc, rfl⟩
  | cons line rest ih =>
      intro acc
      have hrest := ih (fun l hl => h l (List.mem_cons_of_mem line hl))
      rcases h line (List.mem_cons_self line rest) with hskip | hcount
      · obtain ⟨d, hd⟩ := hrest acc
        refine ⟨d, ?_⟩
        rw [List.foldlM_cons]
        simp [readPropsStep, hskip]
        exact hd
      · by_cases hskip : isSkipLine line = true
        · obtain ⟨d, hd⟩ := hrest acc
          refine ⟨d, ?_⟩
          rw [List.foldlM_cons]
          simp [readPropsStep, hskip]
          exact hd
        · obtain ⟨kv, hkv⟩ := parseKV_ok_of_count hcount
          obtain ⟨d, hd⟩ := hrest (assocSet acc kv.1 kv.2)
          refine ⟨d, ?_⟩
          rw [List.foldlM_cons]
          simp [readPropsStep, hskip, hkv]
          exact hd

theorem readProps_fold_error (lines : List (List Char)) (line : List Char)
    (hmem : line ∈ lines) (hskip : isSkipLine line = false)
    (hbad : line.count '=' ≠ 1) :
    ∀ acc, ∃ e, lines.foldlM readPropsStep acc = .error e := by
  induction lines with
  | nil => simp at hmem
  | cons l rest ih =>
      intro acc
      rw [List.foldlM_cons]
      by_cases hl : isSkipLine l = true
      · have hmem' : line ∈ rest := by
          rcases List.mem_cons.mp hmem with h | h
          · subst h; rw [hl] at hskip; simp at hskip
          · exact h
        obtain ⟨e, he⟩ := ih hmem' acc
        refine ⟨e, ?_⟩
        simp [readPropsStep, hl]
        exact he
      · rcases hp : parseKV l with e | kv
        · refine ⟨e, ?_⟩
          simp [readPropsStep, hl, hp]
          rfl
        · have hmem' : line ∈ rest := by
            rcases List.mem_cons.mp hmem with h | h
            · subst h
              obtain ⟨e', he'⟩ := parseKV_error_of_count hbad
              rw [he'] at hp
              simp at hp
            · exact h
          obtain ⟨e, he⟩ := ih hmem' (assocSet acc kv.1 kv.2)
          refine ⟨e, ?_⟩
          simp [readPropsStep, hl, hp]
          exact he

theorem readProps_fold_keys {lines : List (List Char)} {acc d : PropsDict}
    (h : lines.foldlM readPropsStep acc = .ok d) :
    (∀ k, (assocLookup acc k).isSome → (assocLookup d k).isSome) ∧
    (∀ line ∈ lines, isSkipLine line = false →
        (assocLookup d (lineKey line)).isSome) := by
  induction lines generalizing acc with
  | nil =>
      simp only [List.foldlM_nil] at h
      have : acc = d := by simpa [pure, Except.pure] using h
      subst this
      exact ⟨fun k hk => hk, by simp⟩
  | cons l rest ih =>
      rw [List.foldlM_cons] at h
      obtain ⟨acc1, hacc1, h⟩ := except_bind_ok h
      obtain ⟨hpres, hkeys⟩ := ih h
      unfold readPropsStep at hacc1
      by_cases hl : isSkipLine l = true
      · rw [if_pos hl] at hacc1
        have : acc1 = acc := by simpa [pure, Except.pure] using hacc1.symm
        subst this
        refine ⟨hpres, ?_⟩
        intro line hline hns
        rcases List.mem_cons.mp hline with heq | hmem
        · subst heq; rw [hl] at hns; simp at hns
        · exact hkeys line hmem hns
      · rw [if_neg hl] at hacc1
        obtain ⟨kv, hkv, hacc1⟩ := except_bind_ok hacc1
        have : acc1 = assocSet acc kv.1 kv.2 := by
          simpa [pure, Except.pure] using hacc1.symm
        subst this
        refine ⟨?_, ?_⟩
        · intro k hk
          exact hpres k (assocLookup_isSome_assocSet kv.1 kv.2 hk)
        · intro line hline hns
          rcases List.mem_cons.mp hline with heq | hmem
          · subst heq
            have hkey : kv.1 = lineKey line := parseKV_ok_key hkv
            apply hpres
            rw [← hkey]
            simp [assocLookup_assocSet_self]
          · exact hkeys line hmem hns

theorem readProps_fold_values {lines : List (List Char)} {acc d : PropsDict}
    (h : lines.foldlM readPropsStep acc = .ok d) :
    ∀ k v, assocLookup d k = some v →
      assocLookup acc k = some v ∨ ∃ line ∈ lines, parseKV line = .ok (k, v) := by
  induction lines generalizing acc with
  | nil =>
      simp only [List.foldlM_nil] at h
      have : acc = d := by simpa [pure, Except.pure] using h
      subst this
      exact fun k v hv => Or.inl hv
  | cons l rest ih =>
      rw [List.foldlM_cons] at h
      obtain ⟨acc1, hacc1, h2⟩ := except_bind_ok h
      unfold readPropsStep at hacc1
      intro k v hv
      by_cases hl : isSkipLine l = true
      · rw [if_pos hl] at hacc1
        have hae : acc1 = acc := by simpa [pure, Except.pure] using hacc1.symm
        subst hae
        rcases ih h2 k v hv with hacc | ⟨line, hline, hp⟩
        · exact Or.inl hacc
        · exact Or.inr ⟨line, List.mem_cons_of_mem l hline, hp⟩
      · rw [if_neg hl] at hacc1
        obtain ⟨kv, hkv, hacc1⟩ := except_bind_ok hacc1
        have hae : acc1 = assocSet acc kv.1 kv.2 := by
          simpa [pure, Except.pure] using hacc1.symm
        subst hae
        rcases ih h2 k v hv with hacc | ⟨line, hline, hp⟩
        · by_cases hk : kv.1 = k
          · subst hk
            rw [assocLookup_assocSet_self] at hacc
            have hv2 : kv.2 = v := by simpa using hacc
            refine Or.inr ⟨l, List.mem_cons_self l rest, ?_⟩
            have hpair : (kv.1, v) = kv := Prod.ext rfl hv2.symm
            rw [hpair]
            exact hkv
          · rw [assocLookup_assocSet_ne acc kv.1 k kv.2 hk] at hacc
            exact Or.inl hacc
        · exact Or.inr ⟨line, List.mem_cons_of_mem l hline, hp⟩

theorem readProps_fold_sub {res : PropsDict} {lines : List (List Char)}
    (hlines : ∀ line ∈ lines, isSkipLine line = true ∨
        ∃ k v, parseKV line = .ok (k, v) ∧ assocLookup res k = some v) :
    ∀ acc, (∀ k v, assocLookup acc k = some v → assocLookup res k = some v) →
    ∃ d, lines.foldlM readPropsStep acc = .ok d ∧
      (∀ k v, assocLookup d k = some v → assocLookup res k = some v) := by
  induction lines with
  | nil =>
      intro acc hacc
      exact ⟨acc, rfl, hacc⟩
  | cons l rest ih =>
      intro acc hacc
      have hrest := ih (fun x hx => hlines x (List.mem_cons_of_mem l hx))
      rcases hlines l (List.mem_cons_self l rest) with hskip | ⟨k, v, hp, hres⟩
      · obtain ⟨d, hd, hsub⟩ := hrest acc hacc
        refine ⟨d, ?_, hsub⟩
        rw [List.foldlM_cons]
        simp [readPropsStep, hskip]
        exact hd
      · by_cases hl : isSkipLine l = true
        · obtain ⟨d, hd, hsub⟩ := hrest acc hacc
          refine ⟨d, ?_, hsub⟩
          rw [List.foldlM_cons]
          simp [readPropsStep, hl]
          exact hd
        · have hacc' : ∀ k' v', assocLookup (assocSet acc k v) k' = some v' →
              assocLookup res k' = some v' := by
            intro k' v' hv'
            by_cases hk : k = k'
            · subst hk
              rw [assocLookup_assocSet_self] at hv'
              have hvv : v = v' := by simpa using hv'
              rw [← hvv]
              exact hres
            · rw [assocLookup_assocSet_ne acc k k' v hk] at hv'
              exact hacc k' v' hv'
          obtain ⟨d, hd, hsub⟩ := hrest (assocSet acc k v) hacc'
          refine ⟨d, ?_, hsub⟩
          rw [List.foldlM_cons]
          simp [readPropsStep, hl, hp]
          exact hd

/-! ## `buildResult` and `writeLine` facts -/

theorem resolveStep_lookup_ne (src tgt res : PropsDict) (j k : List Char)
    (h : j ≠ k) : assocLookup (resolveStep src tgt res j) k = assocLookup res k := by
  unfold resolveStep
  rcases assocLookup src j with _ | sv <;> rcases assocLookup tgt j with _ | tv <;>
    simp [assocLookup_assocSet_ne res j k _ h]

theorem resolveStep_lookup_self (src tgt res : PropsDict) (k : List Char) :
    assocLookup (resolveStep src tgt res k) k =
      match assocLookup tgt k with
      | some tv => some ((assocLookup src k).getD tv)
      | none => assocLookup res k := by
  unfold resolveStep
  rcases hs : assocLookup src k with _ | sv <;> rcases ht : assocLookup tgt k with _ | tv <;>
    simp [assocLookup_assocSet_self]

theorem foldl_resolveStep_not_mem (src tgt : PropsDict) (K : List (List Char))
    (res : PropsDict) (k : List Char) (h : k ∉ K) :
    assocLookup (K.foldl (resolveStep src tgt) res) k = assocLookup res k := by
  induction K generalizing res with
  | nil => rfl
  | cons j K' ih =>
      have hj : j ≠ k := fun hj => h (hj ▸ List.mem_cons_self j K')
      have hK' : k ∉ K' := fun hk => h (List.mem_cons_of_mem j hk)
      simp only [List.foldl_cons]
      rw [ih (resolveStep src tgt res j) hK', resolveStep_lookup_ne src tgt res j k hj]

theorem foldl_resolveStep_mem (src tgt : PropsDict) {K : List (List Char)}
    (hnd : K.Nodup) {k : List Char} (h : k ∈ K) (res : PropsDict) :
    assocLookup (K.foldl (resolveStep src tgt) res) k =
      match assocLookup tgt k with
      | some tv => some ((assocLookup src k).getD tv)
      | none => assocLookup res k := by
  induction K generalizing res with
  | nil => simp at h
  | cons j K' ih =>
      simp only [List.foldl_cons]
      rcases List.mem_cons.mp h with heq | hmem
      · subst heq
        have hK' : k ∉ K' := (List.nodup_cons.mp hnd).1
        rw [foldl_resolveStep_not_mem src tgt K' _ k hK',
          resolveStep_lookup_self src tgt res k]
      · have hj : j ≠ k := by
          rintro rfl
          exact (List.nodup_cons.mp hnd).1 hmem
        rw [ih (List.nodup_cons.mp hnd).2 hmem (resolveStep src tgt res j)]
        rcases assocLookup tgt k with _ | tv
        · simp [resolveStep_lookup_ne src tgt res j k hj]
        · simp

theorem buildResult_lookup (src tgt : PropsDict) (k : List Char) :
    assocLookup (buildResult src tgt) k = resolvedValue src tgt k := by
  unfold buildResult resolvedValue
  set K := List.insertionSort (fun a b => charListLe a b = true)
    ((src.map Prod.fst ++ tgt.map Prod.fst).dedup) with hK
  have hperm : List.Perm K ((src.map Prod.fst ++ tgt.map Prod.fst).dedup) :=
    List.perm_insertionSort _ _
  have hnd : K.Nodup := hperm.nodup_iff.mpr (List.nodup_dedup _)
  by_cases hk : k ∈ K
  · rw [foldl_resolveStep_mem src tgt hnd hk []]
    rcases assocLookup tgt k with _ | tv <;> simp [assocLookup]
  · rw [foldl_resolveStep_not_mem src tgt K [] k hk]
    have htgt : assocLookup tgt k = none := by
      by_contra hne
      have hsome : (assocLookup tgt k).isSome := by
        rcases hlt : assocLookup tgt k with _ | v
        · rw [hlt] at hne; simp at hne
        · simp
      have hmem : k ∈ tgt.map Prod.fst := (assocLookup_isSome_iff_mem tgt k).mp hsome
      have : k ∈ K := by
        rw [hperm.mem_iff, List.mem_dedup]
        exact List.mem_append_right _ hmem
      exact hk this
    rw [htgt]
    simp [assocLookup]

theorem writeLine_skip {res : PropsDict} {line : List Char}
    (h : isSkipLine line = true) : writeLine res line = .ok line := by
  simp [writeLine, h, pure, Except.pure]

theorem writeLine_key {res : PropsDict} {line v : List Char}
    (h : isSkipLine line = false) (hv : assocLookup res (lineKey line) = some v) :
    writeLine res line = .ok (lineKey line ++ '=' :: v) := by
  simp [writeLine, h, hv, pure, Except.pure]

/-- Per-line characterization of the reconciler: on well-formed inputs it
rewrites the target's lines in place. -/
theorem update_server_properties_spec {S T : List (List Char)} {src tgt : PropsDict}
    (hS : readProps S = .ok src) (hT : readProps T = .ok tgt) :
    update_server_properties S T = .ok (T.map (rewriteLine src tgt)) := by
  have hkeys := (@readProps_fold_keys _ [] tgt hT).2
  have hmap : T.mapM (writeLine (buildResult src tgt)) =
      .ok (T.map (rewriteLine src tgt)) := by
    apply mapM_eq_ok_map
    intro line hline
    by_cases hskip : isSkipLine line = true
    · rw [writeLine_skip hskip]
      simp [rewriteLine, hskip]
    · have hns : isSkipLine line = false := by simpa using hskip
      have hsome := hkeys line hline hns
      rcases hv : assocLookup tgt (lineKey line) with _ | tv
      · rw [hv] at hsome; simp at hsome
      · have hres : assocLookup (buildResult src tgt) (lineKey line) =
            some ((assocLookup src (lineKey line)).getD tv) := by
          rw [buildResult_lookup]
          simp [resolvedValue, hv]
        rw [writeLine_key hns hres]
        simp [rewriteLine, hns, resolvedValue, hv]
  unfold update_server_properties
  rw [hS]
  show (Except.ok src >>= fun src' => readProps T >>=
      fun tgt' => T.mapM (writeLine (buildResult src' tgt'))) = _
  rw [show (Except.ok src >>= fun src' => readProps T >>=
      fun tgt' => T.mapM (writeLine (buildResult src' tgt'))) =
      (readProps T >>= fun tgt' => T.mapM (writeLine (buildResult src tgt'))) from rfl,
    hT]
  show T.mapM (writeLine (buildResult src tgt)) = _
  exact hmap

/-! ## Store-level facts about the `update_server` steps -/

theorem assocSet_assocSet_self {α β : Type} [DecidableEq α]
    (l : List (α × β)) (k : α) (v w : β) :
    assocSet (assocSet l k v) k w = assocSet l k w := by
  induction l with
  | nil => simp [assocSet]
  | cons p rest ih =>
      obtain ⟨a, b⟩ := p
      by_cases h : a = k
      · subst h; simp [assocSet]
      · simp [assocSet, h, ih]

theorem copyIntoStore_ok {st st' : Store} {sp tp name : String}
    (h : copyIntoStore st sp tp name = .ok st') :
    (∀ q, q ≠ name → protectedEntry st' tp q = protectedEntry st tp q) ∧
    (∀ pth, pth ≠ tp → storeGet st' pth = storeGet st pth) ∧
    (∃ d, storeGet st' tp = some d) := by
  unfold copyIntoStore at h
  split at h
  case _ => simp at h
  case _ src hsrc =>
    split at h
    case _ => simp at h
    case _ e he =>
      obtain ⟨e', he', h⟩ := except_bind_ok h
      have hst' : st' = storeSet st tp
          (assocSet ((storeGet st tp).getD []) name e') := by
        simpa [pure, Except.pure] using h.symm
      subst hst'
      refine ⟨?_, ?_, ?_⟩
      · intro q hq
        unfold protectedEntry storeGet storeSet
        rw [assocLookup_assocSet_self]
        rcases hg : assocLookup st tp with _ | d
        · simp [hg, Option.bind, assocSet, assocLookup, Ne.symm hq]
        · simp [hg, Option.bind, assocLookup_assocSet_ne _ name q e' (Ne.symm hq)]
      · intro pth hpth
        unfold storeGet storeSet
        rw [assocLookup_assocSet_ne _ tp pth _ (Ne.symm hpth)]
      · exact ⟨_, by unfold storeGet storeSet; rw [assocLookup_assocSet_self]⟩

theorem copyReleaseFold_ok {xp tp : String} {names : List String} :
    ∀ {st st' : Store},
    names.foldlM
        (fun st name =>
          if SPECIAL_PATHS.contains name then pure st
          else copyIntoStore st xp tp name)
        st = .ok st' →
    (∀ p ∈ SPECIAL_PATHS, protectedEntry st' tp p = protectedEntry st tp p) ∧
    (∀ pth, pth ≠ tp → storeGet st' pth = storeGet st pth) ∧
    (∀ d, storeGet st tp = some d → ∃ d', storeGet st' tp = some d') := by
  induction names with
  | nil =>
      intro st st' h
      simp only [List.foldlM_nil] at h
      have : st = st' := by simpa [pure, Except.pure] using h
      subst this
      exact ⟨fun p _ => rfl, fun pth _ => rfl, fun d hd => ⟨d, hd⟩⟩
  | cons name rest ih =>
      intro st st' h
      rw [List.foldlM_cons] at h
      obtain ⟨st1, hst1, h2⟩ := except_bind_ok h
      obtain ⟨ihprot, ihget, ihpres⟩ := ih h2
      by_cases hsp : SPECIAL_PATHS.contains name
      · rw [if_pos hsp] at hst1
        have : st1 = st := by simpa [pure, Except.pure] using hst1.symm
        subst this
        exact ⟨ihprot, ihget, ihpres⟩
      · rw [if_neg hsp] at hst1
        obtain ⟨hprot1, hget1, hpres1⟩ := copyIntoStore_ok hst1
        refine ⟨?_, ?_, ?_⟩
        · intro p hp
          have hpname : p ≠ name := by
            rintro rfl
            apply hsp
            simpa using hp
          rw [ihprot p hp, hprot1 p hpname]
        · intro pth hpth
          rw [ihget pth hpth, hget1 pth hpth]
        · intro d _
          obtain ⟨d1, hd1⟩ := hpres1
          exact ihpres d1 hd1

theorem copyReleaseFiles_ok {st st' : Store} {xp tp : String}
    (h : copyReleaseFiles st xp tp = .ok st') :
    (∀ p ∈ SPECIAL_PATHS, protectedEntry st' tp p = protectedEntry st tp p) ∧
    (∀ pth, pth ≠ tp → storeGet st' pth = storeGet st pth) ∧
    (∀ d, storeGet st tp = some d → ∃ d', storeGet st' tp = some d') := by
  unfold copyReleaseFiles at h
  split at h
  case _ => simp at h
  case _ latest hl => exact copyReleaseFold_ok h

theorem copySpecialFiles_inplace (st : Store) (lp : String) :
    copySpecialFiles st lp lp = .ok st := by
  unfold copySpecialFiles
  rw [if_neg (by simp)]
  rfl

theorem copySpecialFold_ok {lp tp : String} {names : List String} :
    ∀ {st st' : Store},
    names.foldlM (fun st name => copyIntoStore st lp tp name) st = .ok st' →
    (∀ pth, pth ≠ tp → storeGet st' pth = storeGet st pth) ∧
    (∀ d, storeGet st tp = some d → ∃ d', storeGet st' tp = some d') := by
  induction names with
  | nil =>
      intro st st' h
      simp only [List.foldlM_nil] at h
      have : st = st' := by simpa [pure, Except.pure] using h
      subst this
      exact ⟨fun pth _ => rfl, fun d hd => ⟨d, hd⟩⟩
  | cons name rest ih =>
      intro st st' h
      rw [List.foldlM_cons] at h
      obtain ⟨st1, hst1, h2⟩ := except_bind_ok h
      have hget1 := (copyIntoStore_ok hst1).2.1
      have hpres1 := (copyIntoStore_ok hst1).2.2
      obtain ⟨ihget, ihpres⟩ := ih h2
      refine ⟨?_, ?_⟩
      · intro pth hpth
        rw [ihget pth hpth, hget1 pth hpth]
      · intro d _
        obtain ⟨d1, hd1⟩ := hpres1
        exact ihpres d1 hd1

theorem copySpecialFiles_store {st st' : Store} {lp tp : String}
    (h : copySpecialFiles st lp tp = .ok st') :
    (∀ pth, pth ≠ tp → storeGet st' pth = storeGet st pth) ∧
    (∀ d, storeGet st tp = some d → ∃ d', storeGet st' tp = some d') := by
  unfold copySpecialFiles at h
  split at h
  case _ => exact copySpecialFold_ok h
  case _ =>
    have : st = st' := by simpa [pure, Except.pure] using h
    subst this
    exact ⟨fun pth _ => rfl, fun d hd => ⟨d, hd⟩⟩

theorem readPropFile_congr {st st' : Store} {path : String}
    (h : storeGet st path = storeGet st' path) :
    readPropFile st path = readPropFile st' path := by
  unfold readPropFile
  rw [h]

theorem writeTempFile_ok {tgt0 tgt1 : Dir} {P : List (List Char)}
    (h : writeTempFile tgt0 P = .ok tgt1) :
    tgt1 = assocSet tgt0 "server.properties.temp" (.file P) := by
  unfold writeTempFile at h
  split at h
  · simp at h
  · simpa using h.symm

theorem updatePropertiesStep_store {st st' : Store} {lp xp tp : String}
    (h : updatePropertiesStep st lp xp tp = .ok st') :
    (∀ pth, pth ≠ tp → storeGet st' pth = storeGet st pth) ∧
    (∃ d, storeGet st' tp = some d) := by
  unfold updatePropertiesStep at h
  obtain ⟨P, hP, h1⟩ := except_bind_ok h
  obtain ⟨tgt1, htgt1, h2⟩ := except_bind_ok h1
  obtain ⟨L, hL, h3⟩ := except_bind_ok h2
  obtain ⟨temp, htemp, h4⟩ := except_bind_ok h3
  obtain ⟨R, hR, h5⟩ := except_bind_ok h4
  obtain ⟨tgt3, htgt3, h6⟩ := except_bind_ok h5
  have hst' : st' = storeSet (storeSet st tp tgt1) tp
      (assocSet (assocRemove tgt3 "server.properties.temp")
        "server.properties" (.file R)) := by
    simpa [pure, Except.pure] using h6.symm
  subst hst'
  constructor
  · intro pth hpth
    unfold storeGet storeSet
    rw [assocLookup_assocSet_ne _ tp pth _ (Ne.symm hpth),
      assocLookup_assocSet_ne _ tp pth _ (Ne.symm hpth)]
  · exact ⟨_, by unfold storeGet storeSet; rw [assocLookup_assocSet_self]⟩

theorem updatePropertiesStep_inplace {st st' : Store} {lp xp : String}
    (h : updatePropertiesStep st lp xp lp = .ok st') :
    ∃ P L R, readPropFile st xp = .ok P ∧ readPropFile st lp = .ok L ∧
      update_server_properties L P = .ok R ∧
      protectedEntry st' lp "server.properties" = some (.file R) ∧
      (∀ q, q ≠ "server.properties" → q ≠ "server.properties.temp" →
          protectedEntry st' lp q = protectedEntry st lp q) ∧
      (∀ pth, pth ≠ lp → storeGet st' pth = storeGet st pth) := by
  unfold updatePropertiesStep at h
  obtain ⟨P, hP, h1⟩ := except_bind_ok h
  obtain ⟨tgt1, htgt1, h2⟩ := except_bind_ok h1
  have htgt1' := writeTempFile_ok htgt1
  subst htgt1'
  obtain ⟨L, hL, h3⟩ := except_bind_ok h2
  obtain ⟨temp, htemp, h4⟩ := except_bind_ok h3
  obtain ⟨R, hR, h5⟩ := except_bind_ok h4
  obtain ⟨tgt3, htgt3, h6⟩ := except_bind_ok h5
  have hgetset : storeGet (storeSet st lp (assocSet ((storeGet st lp).getD [])
      "server.properties.temp" (.file P))) lp =
      some (assocSet ((storeGet st lp).getD [])
        "server.properties.temp" (.file P)) := by
    unfold storeGet storeSet
    rw [assocLookup_assocSet_self]
  have hL' : assocLookup ((storeGet st lp).getD []) "server.properties" =
      some (.file L) := by
    unfold readPropFile at hL
    rw [hgetset] at hL
    dsimp only at hL
    have hne : assocLookup (assocSet ((storeGet st lp).getD [])
        "server.properties.temp" (.file P)) "server.properties" =
        assocLookup ((storeGet st lp).getD []) "server.properties" :=
      assocLookup_assocSet_ne _ _ _ _ (by decide)
    rw [hne] at hL
    split at hL
    case _ ls hls =>
      rw [hls]
      simpa [pure, Except.pure] using hL
    case _ => simp at hL
    case _ => simp at hL
  have hd0 : ∃ d0, storeGet st lp = some d0 := by
    rcases hg : storeGet st lp with _ | d0
    · rw [hg] at hL'
      simp [Option.getD, assocLookup] at hL'
    · exact ⟨d0, rfl⟩
  have htemp' : temp = P := by
    rw [hgetset] at htemp
    unfold readTempFile at htemp
    simp only [Option.getD_some] at htemp
    rw [assocLookup_assocSet_self] at htemp
    simpa using htemp.symm
  subst temp
  have hlookup2 : assocLookup (assocSet (assocSet ((storeGet st lp).getD [])
      "server.properties.temp" (.file P)) "server.properties.temp" (.file R))
      "server.properties" = some (.file L) := by
    rw [assocLookup_assocSet_ne _ _ _ _ (by decide),
      assocLookup_assocSet_ne _ _ _ _ (by decide)]
    exact hL'
  have htgt3' : tgt3 = assocRemove
      (assocSet (assocSet ((storeGet st lp).getD [])
        "server.properties.temp" (.file P)) "server.properties.temp" (.file R))
      "server.properties" := by
    unfold removeExistingProps at htgt3
    rw [hgetset] at htgt3
    simp only [Option.getD_some] at htgt3
    rw [hlookup2] at htgt3
    simpa using htgt3.symm
  subst htgt3'
  have hst' : st' = storeSet st lp
      (assocSet (assocRemove (assocRemove
        (assocSet (assocSet ((storeGet st lp).getD [])
          "server.properties.temp" (.file P)) "server.properties.temp" (.file R))
        "server.properties") "server.properties.temp")
        "server.properties" (.file R)) := by
    have h6' := h6.symm
    simp only [pure, Except.pure, Except.ok.injEq] at h6'
    rw [h6']
    unfold storeSet
    rw [assocSet_assocSet_self]
  subst hst'
  obtain ⟨d0, hd0v⟩ := hd0
  refine ⟨P, L, R, hP, ?_, hR, ?_, ?_, ?_⟩
  · unfold readPropFile
    rw [hd0v]
    dsimp only
    rw [hd0v] at hL'
    simp only [Option.getD_some] at hL'
    rw [hL']
    rfl
  · unfold protectedEntry storeGet storeSet
    rw [assocLookup_assocSet_self]
    simp [Option.bind, assocLookup_assocSet_self]
  · intro q hq1 hq2
    have hd0v' : assocLookup st lp = some d0 := hd0v
    unfold protectedEntry storeGet storeSet
    rw [assocLookup_assocSet_self, hd0v']
    simp only [Option.bind, Option.getD_some]
    rw [assocLookup_assocSet_ne _ _ _ _ (Ne.symm hq1),
      assocLookup_assocRemove_ne _ _ _ (Ne.symm hq2),
      assocLookup_assocRemove_ne _ _ _ (Ne.symm hq1),
      assocLookup_assocSet_ne _ _ _ _ (Ne.symm hq2),
      assocLookup_assocSet_ne _ _ _ _ (Ne.symm hq2)]
  · intro pth hpth
    unfold storeGet storeSet
    rw [assocLookup_assocSet_ne _ lp pth _ (Ne.symm hpth)]

theorem removeOldServer_inplace (st : Store) (lp : String) :
    removeOldServer st lp lp = .ok (st, false) := by
  unfold removeOldServer
  rw [if_neg (by simp)]

theorem removeOldServer_separate {st st' : Store} {lp tp : String} {b : Bool}
    (hne : tp ≠ lp) (h : removeOldServer st lp tp = .ok (st', b)) :
    b = true ∧ st' = storeRemove st lp := by
  unfold removeOldServer at h
  rw [if_pos hne] at h
  split at h
  · simp at h
  · simp only [Except.ok.injEq, Prod.mk.injEq] at h
    exact ⟨h.2.symm, h.1.symm⟩

theorem removeOldServer_ok_pair {st : Store} {lp tp : String} {r : Store × Bool}
    (h : removeOldServer st lp tp = .ok r) :
    (tp = lp ∧ r = (st, false)) ∨ (tp ≠ lp ∧ r = (storeRemove st lp, true)) := by
  by_cases hne : tp = lp
  · subst hne
    rw [removeOldServer_inplace] at h
    exact Or.inl ⟨rfl, by simpa using h.symm⟩
  · obtain ⟨hb, hst⟩ := removeOldServer_separate hne
      (h := by rw [show r = (r.1, r.2) from rfl] at h; exact h)
    exact Or.inr ⟨hne, by rw [show r = (r.1, r.2) from rfl, hb, hst]⟩

theorem removeLatestDir_ok {st st' : Store} {xp : String}
    (h : removeLatestDir st xp = .ok st') : st' = storeRemove st xp := by
  unfold removeLatestDir at h
  split at h
  · simp at h
  · simpa using h.symm

theorem ensureTarget_get_self (st : Store) (tp : String) :
    ∃ d, storeGet (ensureTarget st tp) tp = some d := by
  unfold ensureTarget
  split
  case _ d hd => exact ⟨d, hd⟩
  case _ hd =>
    exact ⟨[], by unfold storeGet storeSet; rw [assocLookup_assocSet_self]⟩

theorem ensureTarget_get_ne (st : Store) (tp pth : String) (h : pth ≠ tp) :
    storeGet (ensureTarget st tp) pth = storeGet st pth := by
  unfold ensureTarget
  split
  · rfl
  · unfold storeGet storeSet
    exact assocLookup_assocSet_ne _ _ _ _ (Ne.symm h)

theorem ensureTarget_protected (st : Store) (tp q : String) :
    protectedEntry (ensureTarget st tp) tp q = protectedEntry st tp q := by
  unfold ensureTarget
  split
  · rfl
  case _ hd =>
    unfold protectedEntry storeGet storeSet
    rw [assocLookup_assocSet_self]
    have hd' : assocLookup st tp = none := hd
    rw [hd']
    simp [Option.bind, assocLookup]

theorem update_server_ok_decompose {st : Store} {lp xp : String}
    {tOpt : Option String} {st' : Store} {b : Bool}
    (h : update_server st lp xp tOpt = .ok (st', b)) :
    ∃ s1 s2 s3 s4,
      copyReleaseFiles (ensureTarget st (tOpt.getD lp)) xp (tOpt.getD lp) = .ok s1 ∧
      copySpecialFiles s1 lp (tOpt.getD lp) = .ok s2 ∧
      updatePropertiesStep s2 lp xp (tOpt.getD lp) = .ok s3 ∧
      removeOldServer s3 lp (tOpt.getD lp) = .ok (s4, b) ∧
      removeLatestDir s4 xp = .ok st' := by
  unfold update_server at h
  obtain ⟨s1, h1, hc⟩ := except_bind_ok h
  obtain ⟨s2, h2, hc2⟩ := except_bind_ok hc
  obtain ⟨s3, h3, hc3⟩ := except_bind_ok hc2
  obtain ⟨p4, h4, hc4⟩ := except_bind_ok hc3
  obtain ⟨s4, b4⟩ := p4
  obtain ⟨s5, h5, hc5⟩ := except_bind_ok hc4
  have hfin : s5 = st' ∧ b4 = b := by
    have := hc5.symm
    simp only [pure, Except.pure, Except.ok.injEq, Prod.mk.injEq] at this
    exact ⟨this.1.symm, this.2.symm⟩
  refine ⟨s1, s2, s3, s4, h1, h2, h3, ?_, ?_⟩
  · rw [hfin.2] at h4
    exact h4
  · rw [hfin.1] at h5
    exact h5

/-! ## Idempotence of the properties reconciliation -/

theorem lineKey_no_sep (line : List Char) : '=' ∉ lineKey line := by
  unfold lineKey
  rcases hs : splitOnChar '=' line with _ | ⟨p, ps⟩
  · exact absurd hs (splitOnChar_ne_nil '=' line)
  · intro hm
    exact splitOnChar_parts_no_sep '=' line p (by simp [hs]) (mem_trimChars hm)

theorem lineKey_trim (line : List Char) : trimChars (lineKey line) = lineKey line := by
  unfold lineKey
  exact trimChars_idem _

theorem dict_value_clean {lines : List (List Char)} {d : PropsDict}
    (h : lines.foldlM readPropsStep [] = .ok d) {k v : List Char}
    (hv : assocLookup d k = some v) : '=' ∉ v ∧ trimChars v = v := by
  rcases readProps_fold_values h k v hv with hacc | ⟨line, _, hp⟩
  · simp [assocLookup] at hacc
  · have := parseKV_ok_no_sep hp
    exact ⟨this.1.2, this.2.2⟩

theorem lineKey_of_append {k v : List Char} (hk : '=' ∉ k)
    (hkt : trimChars k = k) (hv : '=' ∉ v) : lineKey (k ++ '=' :: v) = k := by
  unfold lineKey
  rw [splitOnChar_append_sep hk hv]
  simpa using hkt

/-- The rewritten non-skip line re-parses to the same key and its resolved
value, stays a key line (given `keysStayKeys`), and keeps its key. -/
theorem rewriteLine_reparse {S P : List (List Char)} {src tgt : PropsDict}
    (hsrc : readProps S = .ok src) (htgt : readProps P = .ok tgt)
    (hkeys : keysStayKeys P = true) :
    ∀ line ∈ P, isSkipLine line = false →
      ∃ v, rewriteLine src tgt line = lineKey line ++ '=' :: v ∧
        parseKV (rewriteLine src tgt line) = .ok (lineKey line, v) ∧
        assocLookup (buildResult src tgt) (lineKey line) = some v ∧
        isSkipLine (rewriteLine src tgt line) = false ∧
        lineKey (rewriteLine src tgt line) = lineKey line := by
  intro line hmem hns
  have hsome := (@readProps_fold_keys _ [] _ htgt).2 line hmem hns
  rcases hv : assocLookup tgt (lineKey line) with _ | tv
  · rw [hv] at hsome; simp at hsome
  have hrw : rewriteLine src tgt line =
      lineKey line ++ '=' :: (assocLookup src (lineKey line)).getD tv := by
    simp [rewriteLine, hns, resolvedValue, hv]
  have hkne : '=' ∉ lineKey line := lineKey_no_sep line
  have hvclean : '=' ∉ (assocLookup src (lineKey line)).getD tv ∧
      trimChars ((assocLookup src (lineKey line)).getD tv) =
        (assocLookup src (lineKey line)).getD tv := by
    rcases hsv : assocLookup src (lineKey line) with _ | sv
    · simpa [hsv] using dict_value_clean htgt hv
    · simpa [hsv] using dict_value_clean hsrc hsv
  refine ⟨(assocLookup src (lineKey line)).getD tv, hrw, ?_, ?_, ?_, ?_⟩
  · rw [hrw]
    unfold parseKV
    rw [splitOnChar_append_sep hkne hvclean.1]
    simp [lineKey_trim, hvclean.2]
  · rw [buildResult_lookup]
    simp [resolvedValue, hv]
  · rw [hrw]
    have hhead : ¬ ((lineKey line).headD ' ' == '#') = true := by
      have hall := List.all_eq_true.mp hkeys line hmem
      rw [hns] at hall
      simpa using hall
    rcases hk : lineKey line with _ | ⟨c, rest⟩
    · simp [isSkipLine]
    · rw [hk] at hhead
      simp [isSkipLine]
      simpa using hhead
  · rw [hrw]
    exact lineKey_of_append hkne (lineKey_trim line) hvclean.1

/-- Re-running the reconciliation with the previous output as the source
and the same target is the identity on that output, provided no key of the
target document begins with the comment marker. -/
theorem update_server_properties_idem {S P R : List (List Char)}
    (h : update_server_properties S P = .ok R) (hkeys : keysStayKeys P = true) :
    update_server_properties R P = .ok R := by
  have h0 := h
  unfold update_server_properties at h0
  obtain ⟨src, hsrc, hb1⟩ := except_bind_ok h0
  obtain ⟨tgt, htgt, hb2⟩ := except_bind_ok hb1
  have hspec := update_server_properties_spec hsrc htgt
  have hR : R = P.map (rewriteLine src tgt) :=
    Except.ok.inj (h.symm.trans hspec)
  have hgood := rewriteLine_reparse hsrc htgt hkeys
  -- parse the rewritten document
  have hsub := @readProps_fold_sub (buildResult src tgt)
    (P.map (rewriteLine src tgt))
    (by
      intro line' hline'
      obtain ⟨line, hmem, hrw⟩ := List.mem_map.mp hline'
      by_cases hskip : isSkipLine line = true
      · left
        rw [← hrw]
        have hid : rewriteLine src tgt line = line := by
          simp [rewriteLine, hskip]
        rw [hid]
        exact hskip
      · right
        have hns : isSkipLine line = false := by simpa using hskip
        obtain ⟨v, _, hparse, hres, _, _⟩ := hgood line hmem hns
        exact ⟨lineKey line, v, hrw ▸ hparse, hres⟩)
    [] (by simp [assocLookup])
  obtain ⟨src2, hsrc2, hsub2⟩ := hsub
  have hsrc2' : readProps R = .ok src2 := by
    rw [hR]
    exact hsrc2
  have hkeys2 := (@readProps_fold_keys _ [] _ hsrc2).2
  -- each key line of `P` resolves identically in the second run
  have hmap2 : P.mapM (writeLine (buildResult src2 tgt)) =
      .ok (P.map (rewriteLine src tgt)) := by
    apply mapM_eq_ok_map
    intro line hmem
    by_cases hskip : isSkipLine line = true
    · rw [writeLine_skip hskip]
      simp [rewriteLine, hskip]
    · have hns : isSkipLine line = false := by simpa using hskip
      obtain ⟨v, hform, hparse, hres, hns2, hkey2⟩ := hgood line hmem hns
      have hmem2 : rewriteLine src tgt line ∈ P.map (rewriteLine src tgt) :=
        List.mem_map_of_mem _ hmem
      have hpres := hkeys2 (rewriteLine src tgt line) hmem2 hns2
      rw [hkey2] at hpres
      rcases hw : assocLookup src2 (lineKey line) with _ | w
      · rw [hw] at hpres; simp at hpres
      · have hwv : w = v := by
          have := hsub2 (lineKey line) w hw
          rw [hres] at this
          exact (Option.some.inj this).symm
        subst hwv
        have hres2 : assocLookup (buildResult src2 tgt) (lineKey line) = some w := by
          rw [buildResult_lookup]
          have hsome := (@readProps_fold_keys _ [] _ htgt).2 line hmem hns
          rcases htv : assocLookup tgt (lineKey line) with _ | tv
          · rw [htv] at hsome; simp at hsome
          · simp [resolvedValue, htv, hw]
        rw [writeLine_key hns hres2]
        rw [hform]
  unfold update_server_properties
  rw [hsrc2']
  show (Except.ok src2 >>= fun src' => readProps P >>= fun tgt' =>
      P.mapM (writeLine (buildResult src' tgt'))) = .ok R
  show (readProps P >>= fun tgt' =>
      P.mapM (writeLine (buildResult src2 tgt'))) = .ok R
  rw [htgt]
  show P.mapM (writeLine (buildResult src2 tgt)) = .ok R
  rw [hmap2, hR]

/-! ## Claim C9 -/

/-! ## Claim C1 -/

theorem protectedEntry_congr {st st' : Store} {path : String}
    (h : storeGet st path = storeGet st' path) (q : String) :
    protectedEntry st path q = protectedEntry st' path q := by
  unfold protectedEntry
  rw [h]

theorem readPropFile_of_protected {st : Store} {path : String} {ls : List (List Char)}
    (h : protectedEntry st path "server.properties" = some (.file ls)) :
    readPropFile st path = .ok ls := by
  unfold protectedEntry at h
  rcases hget : storeGet st path with _ | d
  · rw [hget] at h
    simp [Option.bind] at h
  · rw [hget] at h
    simp only [Option.bind] at h
    unfold readPropFile
    rw [hget]
    dsimp only
    rw [h]
    rfl

/-- C1 counterexample: in-place merge, run twice with the same re-extracted
release, can lose protected user data the second time.  The installation's
`server.properties` has key line `" #x=9"` (trimmed key `#x`), the
release's has `" #x=1"`; the first run writes back `#x=9` (the local value
survives), but that rewritten line now begins with the comment marker, so
the second run parses the installation document as all comments and the
release value `#x=1` replaces the user's `#x=9`. -/
theorem C1_counterexample :
    update_server
        [("L", [("server.properties", FSEntry.file [[' ','#','x','=','9']])]),
         ("X", [("server.properties", FSEntry.file [[' ','#','x','=','1']])])]
        "L" "X" none =
      .ok ([("L", [("server.properties", FSEntry.file [['#','x','=','9']])])], false) ∧
    update_server
        (storeSet [("L", [("server.properties", FSEntry.file [['#','x','=','9']])])]
          "X" [("server.properties", FSEntry.file [[' ','#','x','=','1']])])
        "L" "X" none =
      .ok ([("L", [("server.properties", FSEntry.file [['#','x','=','1']])])], false) ∧
    "server.properties" ∈ SPECIAL_PATHS ∧
    protectedEntry [("L", [("server.properties", FSEntry.file [['#','x','=','1']])])]
        "L" "server.properties" ≠
      protectedEntry [("L", [("server.properties", FSEntry.file [['#','x','=','9']])])]
        "L" "server.properties" := by
  refine ⟨rfl, rfl, by decide, ?_⟩
  intro h
  have h1 : (some (FSEntry.file [['#','x','=','1']]) : Option FSEntry) =
      some (FSEntry.file [['#','x','=','9']]) := h
  injection h1 with h2
  injection h2 with h3
  exact absurd h3 (by decide)

/-- C1 (amended): (1) the release-copy step never writes any of the four
protected paths at the target, whatever the stores; (2) an in-place merge
run twice with the same re-extracted release tree leaves every protected
path's content unchanged after the second run, provided the release's
configuration document has no key line whose trimmed key begins with the
comment marker (`keysStayKeys`) — without that proviso the second run can
lose user data, as `C1_counterexample` shows. -/
theorem C1_release_copy_protects_and_inplace_idempotence :
    (∀ (st st' : Store) (xp tp : String),
        copyReleaseFiles st xp tp = .ok st' →
        ∀ p ∈ SPECIAL_PATHS, protectedEntry st' tp p = protectedEntry st tp p) ∧
    (∀ (st s1 s2 : Store) (lp xp : String) (D : Dir) (P : List (List Char))
        (b1 b2 : Bool),
        lp ≠ xp → storeGet st xp = some D → readPropFile st xp = .ok P →
        keysStayKeys P = true →
        update_server st lp xp none = .ok (s1, b1) →
        update_server (storeSet s1 xp D) lp xp none = .ok (s2, b2) →
        ∀ p ∈ SPECIAL_PATHS, protectedEntry s2 lp p = protectedEntry s1 lp p) := by
  constructor
  · intro st st' xp tp h p hp
    exact (copyReleaseFiles_ok h).1 p hp
  · intro st s1 s2 lp xp D P b1 b2 hne hD hP hkeys h1 h2
    have hxl : xp ≠ lp := Ne.symm hne
    -- first run
    obtain ⟨a1, a2, a3, a4, h1a, h1b, h1c, h1d, h1e⟩ := update_server_ok_decompose h1
    rw [Option.getD_none] at h1a h1b h1c h1d
    have ha2 : a1 = a2 := by
      rw [copySpecialFiles_inplace a1 lp] at h1b
      exact Except.ok.inj h1b
    subst ha2
    have ha4 : a3 = a4 := by
      rw [removeOldServer_inplace a3 lp] at h1d
      exact congrArg Prod.fst (Except.ok.inj h1d)
    subst ha4
    have hs1 : s1 = storeRemove a3 xp := removeLatestDir_ok h1e
    obtain ⟨P1, L1, R1, hP1, hL1, hU1, hprop1, hq1, hpth1⟩ :=
      updatePropertiesStep_inplace h1c
    have hP1P : P = P1 := by
      have hg : storeGet a1 xp = storeGet st xp := by
        rw [(copyReleaseFiles_ok h1a).2.1 xp hxl, ensureTarget_get_ne st lp xp hxl]
      have : readPropFile a1 xp = readPropFile st xp := readPropFile_congr hg
      rw [this, hP] at hP1
      exact Except.ok.inj hP1
    subst hP1P
    have hs1get : storeGet s1 lp = storeGet a3 lp := by
      rw [hs1]
      exact assocLookup_assocRemove_ne _ xp lp hxl
    have hs1cong := protectedEntry_congr hs1get
    -- second run
    obtain ⟨c1, c2, c3, c4, h2a, h2b, h2c, h2d, h2e⟩ := update_server_ok_decompose h2
    rw [Option.getD_none] at h2a h2b h2c h2d
    have hc2 : c1 = c2 := by
      rw [copySpecialFiles_inplace c1 lp] at h2b
      exact Except.ok.inj h2b
    subst hc2
    have hc4 : c3 = c4 := by
      rw [removeOldServer_inplace c3 lp] at h2d
      exact congrArg Prod.fst (Except.ok.inj h2d)
    subst hc4
    have hs2 : s2 = storeRemove c3 xp := removeLatestDir_ok h2e
    obtain ⟨P2, L2, R2, hP2, hL2, hU2, hprop2, hq2, hpth2⟩ :=
      updatePropertiesStep_inplace h2c
    have hsetget : storeGet (storeSet s1 xp D) lp = storeGet s1 lp :=
      assocLookup_assocSet_ne _ xp lp _ hxl
    have hP2P : P = P2 := by
      have hg : storeGet c1 xp = storeGet st xp := by
        rw [(copyReleaseFiles_ok h2a).2.1 xp hxl,
          ensureTarget_get_ne (storeSet s1 xp D) lp xp hxl]
        show assocLookup (assocSet s1 xp D) xp = storeGet st xp
        rw [assocLookup_assocSet_self, hD]
      have : readPropFile c1 xp = readPropFile st xp := readPropFile_congr hg
      rw [this, hP] at hP2
      exact Except.ok.inj hP2
    subst hP2P
    have hc1prop : protectedEntry c1 lp "server.properties" =
        some (.file R1) := by
      rw [(copyReleaseFiles_ok h2a).1 "server.properties" (by decide),
        ensureTarget_protected, protectedEntry_congr hsetget, hs1cong]
      exact hprop1
    have hL2R1 : R1 = L2 := by
      rw [readPropFile_of_protected hc1prop] at hL2
      exact Except.ok.inj hL2
    subst hL2R1
    have hR2R1 : R1 = R2 := by
      have hidem := update_server_properties_idem hU1 hkeys
      rw [hU2] at hidem
      exact (Except.ok.inj hidem).symm
    subst hR2R1
    intro p hp
    have hs2get : storeGet s2 lp = storeGet c3 lp := by
      rw [hs2]
      exact assocLookup_assocRemove_ne _ xp lp hxl
    rw [protectedEntry_congr hs2get p]
    by_cases hps : p = "server.properties"
    · subst hps
      rw [hprop2, hs1cong]
      exact hprop1.symm
    · have hpt : p ≠ "server.properties.temp" := by
        have hp' : p = "worlds" ∨ p = "allowlist.json" ∨
            p = "permissions.json" ∨ p = "server.properties" := by
          simpa [SPECIAL_PATHS] using hp
        rcases hp' with rfl | rfl | rfl | rfl
        · decide
        · decide
        · decide
        · exact absurd rfl hps
      rw [hq2 p hps hpt, (copyReleaseFiles_ok h2a).1 p hp,
        ensureTarget_protected, protectedEntry_congr hsetget p]

/-- C1 witness: the idempotence half of
`C1_release_copy_protects_and_inplace_idempotence` applied to a concrete
in-place double run (local configuration `x=9`, release configuration
`x=1`, which satisfies `keysStayKeys`); both runs leave the installation
with the reconciled document `x=9`. -/
theorem C1_witness :
    ("L" : String) ≠ "X" ∧
    keysStayKeys [['x','=','1']] = true ∧
    update_server
        [("L", [("server.properties", FSEntry.file [['x','=','9']])]),
         ("X", [("server.properties", FSEntry.file [['x','=','1']])])]
        "L" "X" none =
      .ok ([("L", [("server.properties", FSEntry.file [['x','=','9']])])], false) ∧
    update_server
        (storeSet [("L", [("server.properties", FSEntry.file [['x','=','9']])])]
          "X" [("server.properties", FSEntry.file [['x','=','1']])])
        "L" "X" none =
      .ok ([("L", [("server.properties", FSEntry.file [['x','=','9']])])], false) ∧
    ∀ p ∈ SPECIAL_PATHS,
      protectedEntry [("L", [("server.properties", FSEntry.file [['x','=','9']])])]
          "L" p =
        protectedEntry [("L", [("server.properties", FSEntry.file [['x','=','9']])])]
          "L" p := by
  refine ⟨by decide, by decide, rfl, rfl, ?_⟩
  exact C1_release_copy_protects_and_inplace_idempotence.2
    [("L", [("server.properties", FSEntry.file [['x','=','9']])]),
     ("X", [("server.properties", FSEntry.file [['x','=','1']])])]
    [("L", [("server.properties", FSEntry.file [['x','=','9']])])]
    [("L", [("server.properties", FSEntry.file [['x','=','9']])])]
    "L" "X"
    [("server.properties", FSEntry.file [['x','=','1']])]
    [['x','=','1']] false false
    (by decide) rfl rfl (by decide) rfl rfl

/-! ## Claim C6: pruning idempotence -/

theorem compare_version_zero_symm : ∀ (a b : List Int),
    compare_version a b = 0 → compare_version b a = 0
  | [], b, _ => by cases b <;> rfl
  | _ :: _, [], _ => rfl
  | a :: as, b :: bs, h => by
      unfold compare_version at h ⊢
      by_cases hab : a < b
      · rw [if_pos hab] at h
        exact absurd h (by decide)
      · rw [if_neg hab] at h
        by_cases hba : b < a
        · rw [if_pos hba] at h
          exact absurd h (by decide)
        · rw [if_neg hba] at h
          rw [if_neg hab, if_neg hba]
          exact compare_version_zero_symm as bs h

theorem binInsert_perm {α : Type} (lt : α → α → Bool) (run : List α) (x : α) :
    List.Perm (binInsert lt run x) (x :: run) := by
  have h : ∀ i : Nat, List.Perm (run.take i ++ x :: run.drop i) (x :: run) := by
    intro i
    have hm := @List.perm_middle α x (run.take i) (run.drop i)
    rw [List.take_append_drop] at hm
    exact hm
  exact h _

theorem ascRunSplit_append {α : Type} (lt : α → α → Bool) :
    ∀ (p : α) (l : List α), (ascRunSplit lt p l).1 ++ (ascRunSplit lt p l).2 = l
  | _, [] => rfl
  | p, x :: rest => by
      unfold ascRunSplit
      by_cases h : lt x p = true
      · rw [if_pos h]
        rfl
      · rw [if_neg h]
        show x :: ((ascRunSplit lt x rest).1 ++ (ascRunSplit lt x rest).2) = x :: rest
        rw [ascRunSplit_append lt x rest]

theorem descRunSplit_append {α : Type} (lt : α → α → Bool) :
    ∀ (p : α) (l : List α), (descRunSplit lt p l).1 ++ (descRunSplit lt p l).2 = l
  | _, [] => rfl
  | p, x :: rest => by
      unfold descRunSplit
      by_cases h : lt x p = true
      · rw [if_pos h]
        show x :: ((descRunSplit lt x rest).1 ++ (descRunSplit lt x rest).2) = x :: rest
        rw [descRunSplit_append lt x rest]
      · rw [if_neg h]
        rfl

theorem foldl_binInsert_perm {α : Type} (lt : α → α → Bool) :
    ∀ (l init : List α), List.Perm (l.foldl (binInsert lt) init) (init ++ l)
  | [], init => by simp
  | x :: rest, init => by
      rw [List.foldl_cons]
      have h1 := foldl_binInsert_perm lt rest (binInsert lt init x)
      refine h1.trans ?_
      have hb : List.Perm (binInsert lt init x) (x :: init) := binInsert_perm lt init x
      refine (hb.append_right rest).trans ?_
      show List.Perm (x :: (init ++ rest)) (init ++ x :: rest)
      exact List.perm_middle.symm

theorem pySortSmall_perm {α : Type} (lt : α → α → Bool) :
    ∀ l : List α, List.Perm (pySortSmall lt l) l
  | [] => List.Perm.refl _
  | [_] => List.Perm.refl _
  | a :: b :: rest => by
      show List.Perm (if lt b a = true then
          List.foldl (binInsert lt) ((a :: b :: (descRunSplit lt b rest).1).reverse)
            (descRunSplit lt b rest).2
        else List.foldl (binInsert lt) (a :: b :: (ascRunSplit lt b rest).1)
            (ascRunSplit lt b rest).2)
        (a :: b :: rest)
      by_cases h : lt b a = true
      · rw [if_pos h]
        refine (foldl_binInsert_perm lt _ _).trans ?_
        refine ((List.reverse_perm _).append_right _).trans ?_
        show List.Perm (a :: b :: ((descRunSplit lt b rest).1 ++ (descRunSplit lt b rest).2))
          (a :: b :: rest)
        rw [descRunSplit_append lt b rest]
      · rw [if_neg h]
        refine (foldl_binInsert_perm lt _ _).trans ?_
        show List.Perm (a :: b :: ((ascRunSplit lt b rest).1 ++ (ascRunSplit lt b rest).2))
          (a :: b :: rest)
        rw [ascRunSplit_append lt b rest]

theorem mapM_ok_mem {α β : Type} {f : α → Except String β} :
    ∀ {l : List α} {out : List β}, l.mapM f = .ok out →
      ∀ a ∈ l, ∃ b, f a = .ok b := by
  intro l
  induction l with
  | nil =>
      intro out _ a ha
      simp at ha
  | cons x xs ih =>
      intro out h a ha
      rw [List.mapM_cons] at h
      obtain ⟨b, hb, h2⟩ := except_bind_ok h
      obtain ⟨bs, hbs, _⟩ := except_bind_ok h2
      rcases List.mem_cons.mp ha with rfl | ha2
      · exact ⟨b, hb⟩
      · exact ih hbs a ha2

theorem ddcf_neg {files : List String} {N : Int} (h : ¬ N ≥ 0) :
    delete_download_cache_files files N = files := by
  unfold delete_download_cache_files
  rw [if_neg h]

theorem ddcf_le {files : List String} {N : Int} (hN : N ≥ 0)
    (h : ¬ ((pySortSmall versionLt (files.map getVersion)).length : Int) > N) :
    delete_download_cache_files files N = files := by
  unfold delete_download_cache_files
  rw [if_pos hN]
  show (if ((pySortSmall versionLt (files.map getVersion)).length : Int) > N then
      files.filter (fun f =>
        decide (0 < N) &&
          ((pySortSmall versionLt (files.map getVersion)).drop
            ((pySortSmall versionLt (files.map getVersion)).length - N.toNat)).any
            (fun keep => compare_version keep (getVersion f) == 0))
    else files) = files
  rw [if_neg h]

theorem ddcf_gt {files : List String} {N : Int} (hN : N ≥ 0)
    (h : ((pySortSmall versionLt (files.map getVersion)).length : Int) > N) :
    delete_download_cache_files files N =
      files.filter (fun f =>
        decide (0 < N) &&
          ((pySortSmall versionLt (files.map getVersion)).drop
            ((pySortSmall versionLt (files.map getVersion)).length - N.toNat)).any
            (fun keep => compare_version keep (getVersion f) == 0)) := by
  unfold delete_download_cache_files
  rw [if_pos hN]
  show (if ((pySortSmall versionLt (files.map getVersion)).length : Int) > N then
      files.filter (fun f =>
        decide (0 < N) &&
          ((pySortSmall versionLt (files.map getVersion)).drop
            ((pySortSmall versionLt (files.map getVersion)).length - N.toNat)).any
            (fun keep => compare_version keep (getVersion f) == 0))
    else files) = _
  rw [if_pos h]

theorem ddcf_survivors_le {files : List String} {N : Int} (hN : 0 ≤ N)
    (hpair : (files.map getVersion).Pairwise (fun a b => compare_version a b ≠ 0))
    (hgt : ((pySortSmall versionLt (files.map getVersion)).length : Int) > N) :
    ((delete_download_cache_files files N).length : Int) ≤ N := by
  rw [ddcf_gt hN hgt]
  by_cases hN0 : 0 < N
  · have hperm : List.Perm (pySortSmall versionLt (files.map getVersion))
        (files.map getVersion) := pySortSmall_perm _ _
    have hnodupV : (files.map getVersion).Nodup := by
      refine hpair.imp ?_
      intro a b hab hne
      subst hne
      exact hab (compare_version_refl a)
    have hsymm : Symmetric (fun a b : List Int => compare_version a b ≠ 0) :=
      fun a b h h0 => h (compare_version_zero_symm b a h0)
    set p : String → Bool := fun f =>
      decide (0 < N) &&
        ((pySortSmall versionLt (files.map getVersion)).drop
          ((pySortSmall versionLt (files.map getVersion)).length - N.toNat)).any
          (fun keep => compare_version keep (getVersion f) == 0) with hp
    have hsubl : ((files.filter p).map getVersion).Sublist (files.map getVersion) :=
      (List.filter_sublist files).map getVersion
    have hnodup : ((files.filter p).map getVersion).Nodup := hsubl.nodup hnodupV
    have hsubset : ∀ v ∈ (files.filter p).map getVersion,
        v ∈ (pySortSmall versionLt (files.map getVersion)).drop
          ((pySortSmall versionLt (files.map getVersion)).length - N.toNat) := by
      intro v hv
      obtain ⟨f, hf, rfl⟩ := List.mem_map.mp hv
      have hfp : p f = true := (List.mem_filter.mp hf).2
      rw [hp, Bool.and_eq_true] at hfp
      obtain ⟨k, hk, hkv⟩ := List.any_eq_true.mp hfp.2
      have hkv0 : compare_version k (getVersion f) = 0 := by simpa using hkv
      have hkV : k ∈ files.map getVersion :=
        hperm.mem_iff.mp (List.mem_of_mem_drop hk)
      have hfV : getVersion f ∈ files.map getVersion :=
        List.mem_map_of_mem getVersion (List.mem_filter.mp hf).1
      by_cases hkf : k = getVersion f
      · rw [← hkf]
        exact hk
      · exact absurd hkv0 (hpair.forall hsymm hkV hfV hkf)
    have hsp : ((files.filter p).map getVersion).Subperm
        ((pySortSmall versionLt (files.map getVersion)).drop
          ((pySortSmall versionLt (files.map getVersion)).length - N.toNat)) :=
      List.subperm_of_subset hnodup (fun v hv => hsubset v hv)
    have hlen := hsp.length_le
    rw [List.length_map, List.length_drop] at hlen
    omega
  · have hN0' : N = 0 := by omega
    subst hN0'
    simp

theorem dlsbf_neg {files : List String} {N : Int} (h : ¬ N ≥ 0) :
    delete_local_server_backup_files files N = .ok files := by
  unfold delete_local_server_backup_files
  rw [if_neg h]
  rfl

theorem dlsbf_le {files : List String} {N : Int} {ks : List Int} (hN : N ≥ 0)
    (hks : files.mapM backupKeyE = .ok ks)
    (h : ¬ ((List.insertionSort backupDescRel files).length : Int) > N) :
    delete_local_server_backup_files files N = .ok files := by
  unfold delete_local_server_backup_files
  rw [if_pos hN, hks]
  show (if ((List.insertionSort backupDescRel files).length : Int) > N then
      (pure (files.filter (fun f =>
        decide (f ∉ (List.insertionSort backupDescRel files).drop N.toNat))) :
        Except String (List String))
    else pure files) = .ok files
  rw [if_neg h]
  rfl

theorem dlsbf_gt {files : List String} {N : Int} {ks : List Int} (hN : N ≥ 0)
    (hks : files.mapM backupKeyE = .ok ks)
    (h : ((List.insertionSort backupDescRel files).length : Int) > N) :
    delete_local_server_backup_files files N =
      .ok (files.filter (fun f =>
        decide (f ∉ (List.insertionSort backupDescRel files).drop N.toNat))) := by
  unfold delete_local_server_backup_files
  rw [if_pos hN, hks]
  show (if ((List.insertionSort backupDescRel files).length : Int) > N then
      (pure (files.filter (fun f =>
        decide (f ∉ (List.insertionSort backupDescRel files).drop N.toNat))) :
        Except String (List String))
    else pure files) = _
  rw [if_pos h]
  rfl

theorem dlsbf_ok_keys {files out : List String} {N : Int} (hN : N ≥ 0)
    (h : delete_local_server_backup_files files N = .ok out) :
    ∃ ks, files.mapM backupKeyE = .ok ks := by
  unfold delete_local_server_backup_files at h
  rw [if_pos hN] at h
  obtain ⟨ks, hks, -⟩ := except_bind_ok h
  exact ⟨ks, hks⟩

/-- The backup pruner keeps at most `N.toNat` files whenever the sorted
listing is longer than `N`: the survivors inject (with multiplicity) into
the first `N.toNat` entries of the sorted listing. -/
theorem dlsbf_filter_length_le {files : List String} {N : Int}
    (h : ((List.insertionSort backupDescRel files).length : Int) > N) :
    (files.filter (fun f =>
      decide (f ∉ (List.insertionSort backupDescRel files).drop N.toNat))).length ≤
      N.toNat := by
  set A := List.insertionSort backupDescRel files with hA
  set T := A.take N.toNat with hT
  set D := A.drop N.toNat with hD
  have hperm : List.Perm A files := List.perm_insertionSort _ _
  have hsp : (files.filter (fun f => decide (f ∉ D))).Subperm T := by
    rw [List.subperm_ext_iff]
    intro x hx
    have hxp : decide (x ∉ D) = true := (List.mem_filter.mp hx).2
    have hxD : x ∉ D := of_decide_eq_true hxp
    have hcf : (files.filter (fun f => decide (f ∉ D))).count x = files.count x :=
      List.count_filter hxp
    have hcA : files.count x = A.count x := (hperm.count_eq x).symm
    have hsplit : A.count x = T.count x + D.count x := by
      conv_lhs => rw [← List.take_append_drop N.toNat A]
      exact List.count_append x _ _
    have hzero : D.count x = 0 := List.count_eq_zero_of_not_mem hxD
    omega
  have hlen := hsp.length_le
  have htl : T.length = min N.toNat A.length := List.length_take _ _
  omega

/-- The backup pruner is idempotent: a successful run's output is a fixed
point. -/
theorem dlsbf_idem {files out : List String} {N : Int}
    (h : delete_local_server_backup_files files N = .ok out) :
    delete_local_server_backup_files out N = .ok out := by
  by_cases hN : N ≥ 0
  · obtain ⟨ks, hks⟩ := dlsbf_ok_keys hN h
    by_cases hgt : ((List.insertionSort backupDescRel files).length : Int) > N
    · have hout : out = files.filter (fun f =>
          decide (f ∉ (List.insertionSort backupDescRel files).drop N.toNat)) := by
        rw [dlsbf_gt hN hks hgt] at h
        exact (Except.ok.inj h).symm
      have hsub : ∀ f ∈ out, f ∈ files := by
        rw [hout]
        intro f hf
        exact (List.mem_filter.mp hf).1
      obtain ⟨ks2, hks2⟩ := mapM_ok_of_forall out
        (fun a ha => mapM_ok_mem hks a (hsub a ha))
      have hlen : out.length ≤ N.toNat := by
        rw [hout]
        exact dlsbf_filter_length_le hgt
      have hgt2 : ¬ ((List.insertionSort backupDescRel out).length : Int) > N := by
        have hpl : (List.insertionSort backupDescRel out).length = out.length :=
          (List.perm_insertionSort backupDescRel out).length_eq

        omega
      exact dlsbf_le hN hks2 hgt2
    · have hout : out = files := by
        rw [dlsbf_le hN hks hgt] at h
        exact (Except.ok.inj h).symm
      subst hout
      exact dlsbf_le hN hks hgt
  · have hout : out = files := by
      rw [dlsbf_neg hN] at h
      exact (Except.ok.inj h).symm
    subst hout
    exact dlsbf_neg hN

/-- The cache pruner is idempotent when the listed files' version vectors
are pairwise `compare_version`-inequivalent. -/
theorem ddcf_idem {files : List String} {N : Int}
    (hpair : (files.map getVersion).Pairwise (fun a b => compare_version a b ≠ 0)) :
    delete_download_cache_files (delete_download_cache_files files N) N =
      delete_download_cache_files files N := by
  by_cases hN : N ≥ 0
  · by_cases hgt : ((pySortSmall versionLt (files.map getVersion)).length : Int) > N
    · have hle := ddcf_survivors_le hN hpair hgt
      have hplen : (pySortSmall versionLt
          ((delete_download_cache_files files N).map getVersion)).length =
          (delete_download_cache_files files N).length := by
        rw [(pySortSmall_perm versionLt _).length_eq, List.length_map]
      exact ddcf_le hN (by omega)
    · simp only [ddcf_le hN hgt]
  · simp only [ddcf_neg hN]

/-- C6 counterexample: the cache pruner is not idempotent.  With the
version-prefix-tolerant comparator, `1.1.zip` is kept on the first run (it
is equivalent to the kept boundary version `[1]` of `1.zip`), but on the
second run the sorted survivor list ends in `[1, 0]`, to which `[1, 1]` is
not equivalent, so `1.1.zip` is deleted. -/
theorem C6_counterexample :
    delete_download_cache_files ["1.1.zip", "0.zip", "1.zip", "1.0.zip"] 1 =
      ["1.1.zip", "1.zip", "1.0.zip"] ∧
    delete_download_cache_files ["1.1.zip", "1.zip", "1.0.zip"] 1 =
      ["1.zip", "1.0.zip"] ∧
    (["1.1.zip", "1.zip", "1.0.zip"] : List String) ≠ ["1.zip", "1.0.zip"] := by
  exact ⟨by decide, by decide, by decide⟩

/-- C6 (amended): the backup pruner is idempotent for every input and
retention count (a successful run's output is a fixed point); the cache
pruner is idempotent whenever the files' version vectors are pairwise
`compare_version`-inequivalent (without that proviso idempotence fails, see
`C6_counterexample`). -/
theorem C6_prune_idempotence :
    (∀ (files out : List String) (N : Int),
        delete_local_server_backup_files files N = .ok out →
        delete_local_server_backup_files out N = .ok out) ∧
    (∀ (files : List String) (N : Int),
        (files.map getVersion).Pairwise (fun a b => compare_version a b ≠ 0) →
        delete_download_cache_files (delete_download_cache_files files N) N =
          delete_download_cache_files files N) :=
  ⟨fun _ _ _ h => dlsbf_idem h, fun _ _ hpair => ddcf_idem hpair⟩

/-- C6 witness: both halves of `C6_prune_idempotence` applied to concrete
directories with retention count 1. -/
theorem C6_witness :
    delete_local_server_backup_files ["2-a.zip", "1-b.zip"] 1 = .ok ["2-a.zip"] ∧
    delete_local_server_backup_files ["2-a.zip"] 1 = .ok ["2-a.zip"] ∧
    ((["1.zip", "2.zip"].map getVersion).Pairwise
      (fun a b => compare_version a b ≠ 0)) ∧
    delete_download_cache_files (delete_download_cache_files ["1.zip", "2.zip"] 1) 1 =
      delete_download_cache_files ["1.zip", "2.zip"] 1 := by
  refine ⟨rfl, ?_, by decide, ?_⟩
  · exact C6_prune_idempotence.1 ["2-a.zip", "1-b.zip"] ["2-a.zip"] 1 rfl
  · exact C6_prune_idempotence.2 ["1.zip", "2.zip"] 1 (by decide)

/-! ## Claim C3: retention counts -/

/-- The backup pruner keeps exactly `min N.toNat files.length` files on a
duplicate-free listing, and every survivor's key dominates every deleted
file's key. -/
theorem dlsbf_exact {files out : List String} {N : Int} (hN : 0 ≤ N)
    (hnd : files.Nodup)
    (h : delete_local_server_backup_files files N = .ok out) :
    out.length = min N.toNat files.length ∧
      ∀ f ∈ out, ∀ g ∈ files, g ∉ out → backupKey g ≤ backupKey f := by
  obtain ⟨ks, hks⟩ := dlsbf_ok_keys hN h
  set A := List.insertionSort backupDescRel files with hA
  have hperm : List.Perm A files := List.perm_insertionSort _ _
  have hlenA : A.length = files.length := hperm.length_eq
  by_cases hgt : (A.length : Int) > N
  · have hout : out = files.filter (fun f => decide (f ∉ A.drop N.toNat)) := by
      rw [dlsbf_gt hN hks hgt] at h
      exact (Except.ok.inj h).symm
    have hAnodup : A.Nodup := hperm.symm.nodup hnd
    have hTD : A.take N.toNat ++ A.drop N.toNat = A := List.take_append_drop _ _
    have hdisj : List.Disjoint (A.take N.toNat) (A.drop N.toNat) :=
      List.disjoint_of_nodup_append (by rw [hTD]; exact hAnodup)
    have hpermOut : List.Perm out (A.take N.toNat) := by
      rw [hout]
      refine (hperm.symm.filter _).trans ?_
      have h1 : (A.take N.toNat).filter (fun f => decide (f ∉ A.drop N.toNat)) =
          A.take N.toNat := by
        rw [List.filter_eq_self]
        intro a ha
        exact decide_eq_true (hdisj ha)
      have h2 : (A.drop N.toNat).filter (fun f => decide (f ∉ A.drop N.toNat)) =
          [] := by
        rw [List.filter_eq_nil_iff]
        intro a ha hpa
        exact (of_decide_eq_true hpa) ha
      have hfilt : A.filter (fun f => decide (f ∉ A.drop N.toNat)) = A.take N.toNat := by
        calc A.filter (fun f => decide (f ∉ A.drop N.toNat))
            = (A.take N.toNat ++ A.drop N.toNat).filter
                (fun f => decide (f ∉ A.drop N.toNat)) := by rw [hTD]
          _ = (A.take N.toNat).filter (fun f => decide (f ∉ A.drop N.toNat)) ++
                (A.drop N.toNat).filter (fun f => decide (f ∉ A.drop N.toNat)) :=
              List.filter_append _ _
          _ = A.take N.toNat := by rw [h1, h2, List.append_nil]
      rw [hfilt]
    constructor
    · rw [hpermOut.length_eq, List.length_take, hlenA]
    · intro f hf g hg hgout
      have hfT : f ∈ A.take N.toNat := hpermOut.mem_iff.mp hf
      have hgA : g ∈ A := hperm.mem_iff.mpr hg
      have hgTD : g ∈ A.take N.toNat ++ A.drop N.toNat := by
        rw [hTD]
        exact hgA
      have hgD : g ∈ A.drop N.toNat := by
        rcases List.mem_append.mp hgTD with hgT | hgD
        · exfalso
          apply hgout
          rw [hout, List.mem_filter]
          exact ⟨hg, decide_eq_true (hdisj hgT)⟩
        · exact hgD
      have hsorted : List.Pairwise backupDescRel A :=
        List.sorted_insertionSort backupDescRel files
      have hsTD : List.Pairwise backupDescRel (A.take N.toNat ++ A.drop N.toNat) := by
        rw [hTD]
        exact hsorted
      exact (List.pairwise_append.mp hsTD).2.2 f hfT g hgD
  · have hout : out = files := by
      rw [dlsbf_le hN hks hgt] at h
      exact (Except.ok.inj h).symm
    subst hout
    constructor
    · have hle : out.length ≤ N.toNat := by
        rw [← hlenA]
        omega
      omega
    · intro f hf g hg hgout
      exact absurd hg hgout

/-- C3 counterexample: boundary ties are not all kept by the backup pruner
(two backups sharing key `100`, retention 1: only the first in listing
order survives), and the cache pruner can keep more than `min(N, count)`
files (two prefix-equivalent versions, retention 1: both survive). -/
theorem C3_counterexample :
    delete_local_server_backup_files ["100-a.zip", "100-b.zip"] 1 =
      .ok ["100-a.zip"] ∧
    backupKey "100-a.zip" = backupKey "100-b.zip" ∧
    ("100-b.zip" : String) ∉ (["100-a.zip"] : List String) ∧
    delete_download_cache_files ["1.zip", "1.0.zip"] 1 = ["1.zip", "1.0.zip"] ∧
    (["1.zip", "1.0.zip"] : List String).length ≠ (1 : Int).toNat := by
  exact ⟨rfl, by decide, by decide, by decide, by decide⟩

/-- C3 (amended): negative retention counts prune nothing; the backup
pruner keeps exactly `min(N, count)` files on a duplicate-free listing and
the survivors dominate all deleted files by key (ties at the boundary are
broken by sort stability, not by keeping all tied files); the cache pruner
keeps exactly the files whose version is `compare_version`-equivalent to
one of the `N` boundary versions of its sorted version list — which, for
prefix-equivalent versions, can exceed `min(N, count)`, as the final
conjunct shows on a concrete directory. -/
theorem C3_prune_retention :
    (∀ (files : List String) (N : Int), N < 0 →
        delete_download_cache_files files N = files ∧
        delete_local_server_backup_files files N = .ok files) ∧
    (∀ (files out : List String) (N : Int), 0 ≤ N → files.Nodup →
        delete_local_server_backup_files files N = .ok out →
        out.length = min N.toNat files.length ∧
        ∀ f ∈ out, ∀ g ∈ files, g ∉ out → backupKey g ≤ backupKey f) ∧
    (∀ (files : List String) (N : Int) (f : String), 0 ≤ N →
        ((pySortSmall versionLt (files.map getVersion)).length : Int) > N →
        (f ∈ delete_download_cache_files files N ↔
          f ∈ files ∧ 0 < N ∧
            ∃ k ∈ (pySortSmall versionLt (files.map getVersion)).drop
                ((pySortSmall versionLt (files.map getVersion)).length - N.toNat),
              compare_version k (getVersion f) = 0)) ∧
    delete_download_cache_files ["1.zip", "1.0.zip"] 1 = ["1.zip", "1.0.zip"] := by
  refine ⟨?_, ?_, ?_, by decide⟩
  · intro files N hNneg
    exact ⟨ddcf_neg (by omega), dlsbf_neg (by omega)⟩
  · intro files out N hN hnd h
    exact dlsbf_exact hN hnd h
  · intro files N f hN hgt
    rw [ddcf_gt hN hgt, List.mem_filter]
    simp only [Bool.and_eq_true, decide_eq_true_eq, List.any_eq_true, beq_iff_eq]

/-- C3 witness: the three conditional parts of `C3_prune_retention`
applied to concrete directories. -/
theorem C3_witness :
    (delete_download_cache_files ["7.zip"] (-1) = ["7.zip"] ∧
     delete_local_server_backup_files ["7.zip"] (-1) = .ok ["7.zip"]) ∧
    ((["2-a.zip"] : List String).length =
      min (1 : Int).toNat (["2-a.zip", "1-b.zip"] : List String).length) ∧
    ("1.0.zip" ∈ delete_download_cache_files ["1.zip", "1.0.zip"] 1 ↔
      "1.0.zip" ∈ (["1.zip", "1.0.zip"] : List String) ∧ (0 : Int) < 1 ∧
        ∃ k ∈ (pySortSmall versionLt
            ((["1.zip", "1.0.zip"] : List String).map getVersion)).drop
            ((pySortSmall versionLt
              ((["1.zip", "1.0.zip"] : List String).map getVersion)).length -
              (1 : Int).toNat),
          compare_version k (getVersion "1.0.zip") = 0) := by
  refine ⟨?_, ?_, ?_⟩
  · exact C3_prune_retention.1 ["7.zip"] (-1) (by decide)
  · exact (C3_prune_retention.2.1 ["2-a.zip", "1-b.zip"] ["2-a.zip"] 1
      (by decide) (by decide) rfl).1
  · exact C3_prune_retention.2.2.1 ["1.zip", "1.0.zip"] 1 "1.0.zip"
      (by decide) (by decide)

/-- C9: the recursive deletion of the installation directory (step 4) runs
only when the target path differs from the installation path.  For an
in-place merge (unset target, or target equal to the installation path) the
returned deletion flag is `false` and the installation tree is still
present in the store afterwards; for a distinct target the flag is `true`
and the installation tree is gone. -/
theorem C9_inplace_never_deletes_installation :
    (∀ (st st' : Store) (lp xp : String) (b : Bool), lp ≠ xp →
        update_server st lp xp none = .ok (st', b) →
        b = false ∧ ∃ d, storeGet st' lp = some d) ∧
    (∀ (st st' : Store) (lp xp : String) (b : Bool), lp ≠ xp →
        update_server st lp xp (some lp) = .ok (st', b) →
        b = false ∧ ∃ d, storeGet st' lp = some d) ∧
    (∀ (st st' : Store) (lp xp tp : String) (b : Bool), tp ≠ lp →
        update_server st lp xp (some tp) = .ok (st', b) →
        b = true ∧ storeGet st' lp = none) := by
  have main : ∀ (st st' : Store) (lp xp : String) (tOpt : Option String) (b : Bool),
      lp ≠ xp → tOpt.getD lp = lp →
      update_server st lp xp tOpt = .ok (st', b) →
      b = false ∧ ∃ d, storeGet st' lp = some d := by
    intro st st' lp xp tOpt b hne htp h
    obtain ⟨s1, s2, s3, s4, h1, h2, h3, h4, h5⟩ := update_server_ok_decompose h
    rw [htp] at h1 h2 h3 h4
    obtain ⟨d0, hd0⟩ := ensureTarget_get_self st lp
    obtain ⟨d1, hd1⟩ := (copyReleaseFiles_ok h1).2.2 d0 hd0
    obtain ⟨d2, hd2⟩ := (copySpecialFiles_store h2).2 d1 hd1
    obtain ⟨d3, hd3⟩ := (updatePropertiesStep_store h3).2
    rcases removeOldServer_ok_pair h4 with ⟨-, hr⟩ | ⟨hcontra, -⟩
    · have hs4 : s4 = s3 ∧ b = false := by
        have := hr
        simp only [Prod.mk.injEq] at this
        exact this
      obtain ⟨hs4e, hb⟩ := hs4
      subst hs4e
      have hst' := removeLatestDir_ok h5
      subst hst'
      refine ⟨hb, d3, ?_⟩
      unfold storeGet storeRemove
      rw [assocLookup_assocRemove_ne _ xp lp (Ne.symm hne)]
      exact hd3
    · exact absurd rfl hcontra
  refine ⟨?_, ?_, ?_⟩
  · intro st st' lp xp b hne h
    exact main st st' lp xp none b hne rfl h
  · intro st st' lp xp b hne h
    exact main st st' lp xp (some lp) b hne rfl h
  · intro st st' lp xp tp b hne h
    obtain ⟨s1, s2, s3, s4, h1, h2, h3, h4, h5⟩ := update_server_ok_decompose h
    simp only [Option.getD] at h1 h2 h3 h4
    obtain ⟨hb, hs4⟩ := removeOldServer_separate hne h4
    subst hs4
    have hst' := removeLatestDir_ok h5
    subst hst'
    refine ⟨hb, ?_⟩
    by_cases hxl : xp = lp
    · subst hxl
      unfold storeGet storeRemove
      exact assocLookup_assocRemove_self (assocRemove s3 xp) xp
    · unfold storeGet storeRemove
      rw [assocLookup_assocRemove_ne _ xp lp (fun he => hxl he)]
      exact assocLookup_assocRemove_self s3 lp

/-- C9 witness: a concrete in-place run (deletion flag `false`, tree still
present) obtained by applying the in-place part of
`C9_inplace_never_deletes_installation` to an evaluated run. -/
theorem C9_witness :
    ∃ stb : Store × Bool,
      update_server
        [("L", [("server.properties", FSEntry.file [])]),
         ("X", [("server.properties", FSEntry.file [])])] "L" "X" none =
        .ok stb ∧
      stb.2 = false ∧ ∃ d, storeGet stb.1 "L" = some d := by
  have hrun : ∃ stb : Store × Bool,
      update_server
        [("L", [("server.properties", FSEntry.file [])]),
         ("X", [("server.properties", FSEntry.file [])])] "L" "X" none =
        .ok stb := by
    exact ⟨_, rfl⟩
  obtain ⟨⟨s, b⟩, hs⟩ := hrun
  have := C9_inplace_never_deletes_installation.1
    [("L", [("server.properties", FSEntry.file [])]),
     ("X", [("server.properties", FSEntry.file [])])] s "L" "X" b
    (by decide) hs
  exact ⟨(s, b), hs, this.1, this.2⟩

/-! ## Claims C7 and C2 -/

/-- C7: `update_server_properties` fails with a fatal error (`ValueError`
from the two-way unpacking of `line.split("=")`) whenever any non-comment,
non-blank line of either document does not contain exactly one `=` (no `=`,
or an ambiguous split), and never guesses or skips such a line; on
well-formed documents (every non-comment, non-blank line has exactly one
`=`) no error is raised. -/
theorem C7_malformed_line_fatal :
    (∀ S T line, (line ∈ S ∨ line ∈ T) → isSkipLine line = false →
        line.count '=' ≠ 1 → ∃ e, update_server_properties S T = .error e) ∧
    (∀ S T, (∀ line ∈ S, isSkipLine line = true ∨ line.count '=' = 1) →
        (∀ line ∈ T, isSkipLine line = true ∨ line.count '=' = 1) →
        ∃ out, update_server_properties S T = .ok out) := by
  constructor
  · intro S T line hmem hns hbad
    rcases hmem with hS | hT
    · obtain ⟨e, he⟩ := readProps_fold_error S line hS hns hbad []
      refine ⟨e, ?_⟩
      unfold update_server_properties readProps
      rw [he]
      rfl
    · rcases hrS : readProps S with e | src
      · refine ⟨e, ?_⟩
        unfold update_server_properties
        rw [hrS]
        rfl
      · obtain ⟨e, he⟩ := readProps_fold_error T line hT hns hbad []
        refine ⟨e, ?_⟩
        unfold update_server_properties
        rw [hrS]
        show (readProps T >>= fun tgt' =>
          T.mapM (writeLine (buildResult src tgt'))) = Except.error e
        unfold readProps
        rw [he]
        rfl
  · intro S T hS hT
    obtain ⟨src, hsrc⟩ := readProps_fold_ok_of_wf S hS []
    obtain ⟨tgt, htgt⟩ := readProps_fold_ok_of_wf T hT []
    exact ⟨T.map (rewriteLine src tgt), update_server_properties_spec hsrc htgt⟩

/-- C7 witness: the error half applied to a target document containing the
delimiter-free line `ab`, and the success half applied to well-formed
documents. -/
theorem C7_witness :
    (∃ e, update_server_properties ["a=1".data] ["ab".data] = .error e) ∧
    (∃ out, update_server_properties ["a=1".data] ["b=2".data, "# c".data] = .ok out) := by
  constructor
  · exact C7_malformed_line_fatal.1 ["a=1".data] ["ab".data] "ab".data
      (Or.inr (by simp)) (by decide) (by decide)
  · exact C7_malformed_line_fatal.2 ["a=1".data] ["b=2".data, "# c".data]
      (by decide) (by decide)

/-- C2 counterexample: with source `{a=1, b=2}` and target
`{b=9, c=3, # hi, blank}`, the shared key `b` takes the *source's* value
`2`, so the output is `b=2, c=3, # hi, blank` and does not contain the
line `b=1` that the claim asserts. -/
theorem C2_counterexample :
    update_server_properties ["a=1".data, "b=2".data]
        ["b=9".data, "c=3".data, "# hi".data, []] =
      .ok ["b=2".data, "c=3".data, "# hi".data, []] ∧
    "b=1".data ∉ ["b=2".data, "c=3".data, "# hi".data, []] := by
  constructor
  · rfl
  · decide

/-- C2 (amended): on well-formed documents the reconciler writes back the
target document in its original line order: comments and blanks verbatim in
position (identical line count), and each key line re-emitted as
`key=value` with the key taken from that target line and the value resolved
as source's when the key is in both documents, else the target's own; keys
present only in the source are never written (every output line is a
rewrite of the corresponding target line).  Concretely, with source
`{a=1, b=2}` and target `{b=9, c=3, # hi, blank}`, the output preserves the
comment and blank line, contains `b=2` (source value) and `c=3`
(target-only), and `a` appears as no output line's key. -/
theorem C2_writeback_order_and_resolution :
    (∀ S T : List (List Char), ∀ src tgt : PropsDict,
      readProps S = .ok src → readProps T = .ok tgt →
      update_server_properties S T = .ok (T.map (rewriteLine src tgt)) ∧
      (T.map (rewriteLine src tgt)).length = T.length ∧
      (∀ line ∈ T, isSkipLine line = true → rewriteLine src tgt line = line) ∧
      (∀ line ∈ T, isSkipLine line = false →
        ∃ tv, assocLookup tgt (lineKey line) = some tv ∧
          rewriteLine src tgt line =
            lineKey line ++ '=' :: ((assocLookup src (lineKey line)).getD tv))) ∧
    update_server_properties ["a=1".data, "b=2".data]
        ["b=9".data, "c=3".data, "# hi".data, []] =
      .ok ["b=2".data, "c=3".data, "# hi".data, []] ∧
    (["b=2".data, "c=3".data, "# hi".data, []].all
        (fun l => !(lineKey l == ['a']))) = true := by
  refine ⟨?_, by rfl, by decide⟩
  intro S T src tgt hS hT
  refine ⟨update_server_properties_spec hS hT, by simp, ?_, ?_⟩
  · intro line _ hskip
    simp [rewriteLine, hskip]
  · intro line hline hns
    have hsome := (@readProps_fold_keys _ [] tgt hT).2 line hline hns
    rcases hv : assocLookup tgt (lineKey line) with _ | tv
    · rw [hv] at hsome; simp at hsome
    · exact ⟨tv, rfl, by simp [rewriteLine, hns, resolvedValue, hv]⟩

/-- C2 witness: the general half of `C2_writeback_order_and_resolution`
instantiated at the concrete documents of the claim, with the
well-formedness hypotheses discharged by evaluation. -/
theorem C2_witness :
    update_server_properties ["a=1".data, "b=2".data]
        ["b=9".data, "c=3".data, "# hi".data, []] =
      .ok (["b=9".data, "c=3".data, "# hi".data, []].map
        (rewriteLine [("a".data, "1".data), ("b".data, "2".data)]
          [("b".data, "9".data), ("c".data, "3".data)])) := by
  have h := C2_writeback_order_and_resolution.1
    ["a=1".data, "b=2".data] ["b=9".data, "c=3".data, "# hi".data, []]
    [("a".data, "1".data), ("b".data, "2".data)]
    [("b".data, "9".data), ("c".data, "3".data)]
    (by rfl) (by rfl)
  exact h.1

/-! ## Claim C4 -/

/-- C4: `compare_version` compares component-wise over the shared prefix
length; the first differing shared component decides the result (`-1` for
less, `1` for greater); an identical shared prefix yields `0` (EQUAL)
regardless of length mismatch; and in particular
`compare([1,2],[1,2,3]) = 0`, `compare([1,3],[1,2,3]) = 1`,
`compare([],[1]) = 0`. -/
theorem C4_compare_version_shared_start :
    (∀ v1 v2 : List Int,
        (∀ i, i < min v1.length v2.length → v1.get? i = v2.get? i) →
          compare_version v1 v2 = 0) ∧
    (∀ v1 v2 : List Int, ∀ i : Nat,
        i < min v1.length v2.length →
        (∀ j, j < i → v1.get? j = v2.get? j) →
        v1.get? i ≠ v2.get? i →
          compare_version v1 v2 = if v1.getD i 0 < v2.getD i 0 then -1 else 1) ∧
    compare_version [1, 2] [1, 2, 3] = 0 ∧
    compare_version [1, 3] [1, 2, 3] = 1 ∧
    compare_version [] [1] = 0 := by
  refine ⟨compare_version_eq_zero_of_agree, compare_version_first_diff, ?_, ?_, ?_⟩
  · decide
  · decide
  · decide

/-- C4 witness: the general parts of `C4_compare_version_shared_start`
instantiated at concrete vectors with their hypotheses discharged. -/
theorem C4_witness :
    compare_version [1, 2] [1, 2, 3] = 0 ∧
    compare_version [4, 7, 1] [4, 5] = 1 :=
  ⟨C4_compare_version_shared_start.1 [1, 2] [1, 2, 3] (by decide),
   by
    have h := C4_compare_version_shared_start.2.1 [4, 7, 1] [4, 5] 1
      (by decide) (by decide) (by decide)
    simpa using h⟩

/-! ## Claim C5 -/

/-- C5 (code bug): when a cached release archive exists and fails to
unpack, the recovery handler calls `shutil.rmtree` on the cached *file*
(line 113), which raises `NotADirectoryError`; the broad handler (line 141)
swallows it, so the function returns without deleting the cached archive or
any extraction directory and without attempting a fresh download — contrary
to the claim (and to the code's own log message) that both cache artifacts
are deleted and a fresh download is performed. -/
theorem C5_cached_unpack_failure_aborts_without_cleanup :
    ∀ (st : DownloadState) (statusOk : Bool),
      st.downloadFile = PathState.regularFile →
      handleDownloadAndExtract false statusOk st = (st, false) := by
  intro st statusOk h
  simp [handleDownloadAndExtract, h, rmtreePath]

/-- C5 witness: the failing configuration — a cached archive present (as a
regular file), no extraction directory, fresh download possible — evaluated
concretely: the state is returned unchanged and no download is attempted. -/
theorem C5_witness :
    handleDownloadAndExtract false true
        ⟨PathState.regularFile, PathState.absent, false⟩ =
      (⟨PathState.regularFile, PathState.absent, false⟩, false) :=
  C5_cached_unpack_failure_aborts_without_cleanup
    ⟨PathState.regularFile, PathState.absent, false⟩ true rfl

/-! ## Claim C10 -/

/-- C10: `backup_local_server` removes any existing backup named with the
current minute's timestamp and the installation's base name before writing
the new archive: afterwards exactly one file of that name exists and it
holds the fresh archive; entries under any other name are untouched; and
re-running within the same minute replaces the earlier backup (the final
conjunct re-runs the backup and finds the second archive, alone, under the
target name). -/
theorem C10_backup_same_minute_replaces :
    ∀ {α : Type} (files : List (String × α)) (now base ext : String) (a1 a2 : α),
      (backup_local_server files now base ext a1).filter
          (fun p => p.1 == now ++ "-" ++ base ++ "." ++ ext) =
        [(now ++ "-" ++ base ++ "." ++ ext, a1)] ∧
      (∀ n : String, n ≠ now ++ "-" ++ base ++ "." ++ ext →
        (backup_local_server files now base ext a1).filter (fun p => p.1 == n) =
          files.filter (fun p => p.1 == n)) ∧
      (backup_local_server (backup_local_server files now base ext a1)
          now base ext a2).filter
          (fun p => p.1 == now ++ "-" ++ base ++ "." ++ ext) =
        [(now ++ "-" ++ base ++ "." ++ ext, a2)] := by
  have main : ∀ {α : Type} (files : List (String × α)) (now base ext : String) (a : α),
      (backup_local_server files now base ext a).filter
          (fun p => p.1 == now ++ "-" ++ base ++ "." ++ ext) =
        [(now ++ "-" ++ base ++ "." ++ ext, a)] := by
    intro α files now base ext a
    unfold backup_local_server
    by_cases hany : files.any (fun p => p.1 == now ++ "-" ++ base ++ "." ++ ext)
    · simp only [hany, if_pos, List.filter_append]
      rw [List.filter_filter]
      have : ∀ p : String × α,
          ((p.1 == now ++ "-" ++ base ++ "." ++ ext) &&
            (p.1 != now ++ "-" ++ base ++ "." ++ ext)) = false := by
        intro p
        by_cases h : p.1 = now ++ "-" ++ base ++ "." ++ ext <;> simp [h]
      simp [List.filter_eq_nil_iff, this]
    · rw [Bool.not_eq_true] at hany
      have hnone : files.filter
          (fun p => p.1 == now ++ "-" ++ base ++ "." ++ ext) = [] := by
        rw [List.filter_eq_nil_iff]
        intro p hp
        have := (List.any_eq_false).mp hany p hp
        simpa using this
      simp [hany, List.filter_append, hnone]
  have other : ∀ {α : Type} (files : List (String × α)) (now base ext : String) (a : α)
      (n : String), n ≠ now ++ "-" ++ base ++ "." ++ ext →
      (backup_local_server files now base ext a).filter (fun p => p.1 == n) =
        files.filter (fun p => p.1 == n) := by
    intro α files now base ext a n hn
    unfold backup_local_server
    by_cases hany : files.any (fun p => p.1 == now ++ "-" ++ base ++ "." ++ ext)
    · simp only [hany, if_pos, List.filter_append]
      rw [List.filter_filter]
      have heq : ∀ p : String × α, p ∈ files →
          ((p.1 == n) && (p.1 != now ++ "-" ++ base ++ "." ++ ext)) = (p.1 == n) := by
        intro p _
        by_cases h : p.1 = n
        · simp [h, hn]
        · simp [h]
      rw [List.filter_congr heq]
      simp [Ne.symm hn]
    · rw [Bool.not_eq_true] at hany
      have hne : ((now ++ "-" ++ base ++ "." ++ ext) == n) = false := by
        simp [Ne.symm hn]
      simp [hany, List.filter_append, hne]
  intro α files now base ext a1 a2
  exact ⟨main files now base ext a1,
         fun n hn => other files now base ext a1 n hn,
         main (backup_local_server files now base ext a1) now base ext a2⟩

/-- C10 witness: `C10_backup_same_minute_replaces` applied to a concrete
backup directory already holding a backup for the same minute, with the
other-names hypothesis discharged at a concrete distinct name. -/
theorem C10_witness :
    (backup_local_server [("202401010101-srv.zip", 1), ("other.zip", 7)]
        "202401010101" "srv" "zip" 2).filter
        (fun p => p.1 == "202401010101" ++ "-" ++ "srv" ++ "." ++ "zip") =
      [("202401010101" ++ "-" ++ "srv" ++ "." ++ "zip", 2)] ∧
    (backup_local_server [("202401010101-srv.zip", 1), ("other.zip", 7)]
        "202401010101" "srv" "zip" 2).filter (fun p => p.1 == "other.zip") =
      [("other.zip", 7)] := by
  have h := C10_backup_same_minute_replaces
    [("202401010101-srv.zip", 1), ("other.zip", 7)] "202401010101" "srv" "zip" 2 2
  refine ⟨h.1, ?_⟩
  have h2 := h.2.1 "other.zip" (by decide)
  rw [h2]
  decide

/-! ## Claim C8: the token scanner -/

theorem takeDigits_append : ∀ cs : List Char,
    (takeDigits cs).1 ++ (takeDigits cs).2 = cs
  | [] => rfl
  | c :: rest => by
      unfold takeDigits
      by_cases h : c.isDigit = true
      · rw [if_pos h]
        show c :: ((takeDigits rest).1 ++ (takeDigits rest).2) = c :: rest
        rw [takeDigits_append rest]
      · rw [if_neg h]
        rfl

theorem takeDigits_fst_all : ∀ cs : List Char,
    (takeDigits cs).1.all (·.isDigit) = true
  | [] => rfl
  | c :: rest => by
      unfold takeDigits
      by_cases h : c.isDigit = true
      · rw [if_pos h]
        show (c :: (takeDigits rest).1).all (·.isDigit) = true
        rw [List.all_cons, h, takeDigits_fst_all rest]
        rfl
      · rw [if_neg h]
        rfl

theorem takeDigits_of_head_not_digit {c : Char} {rest : List Char}
    (h : c.isDigit = false) : takeDigits (c :: rest) = ([], c :: rest) := by
  unfold takeDigits
  rw [if_neg (by simp [h])]

theorem dropWhile_append_of_all {p : Char → Bool} :
    ∀ {d : List Char} (xs : List Char), d.all p = true →
      (d ++ xs).dropWhile p = xs.dropWhile p := by
  intro d
  induction d with
  | nil =>
      intro xs _
      rfl
  | cons c rest ih =>
      intro xs hall
      rw [List.all_cons, Bool.and_eq_true] at hall
      rw [List.cons_append, List.dropWhile_cons_of_pos hall.1]
      exact ih xs hall.2

theorem matchFloatTail_parts {cs tok r : List Char}
    (h : matchFloatTail cs = some (tok, r)) :
    ∃ d1 d2, tok = d1 ++ '.' :: d2 ∧ d1.all (·.isDigit) = true ∧
      d2 ≠ [] ∧ d2.all (·.isDigit) = true ∧ tok ++ r = cs := by
  unfold matchFloatTail at h
  split at h
  case _ d1 r2 heq =>
    split at h
    case _ => simp at h
    case _ d2 r3 hne2 heq2 =>
      simp only [Option.some.injEq, Prod.mk.injEq] at h
      obtain ⟨htok, hr⟩ := h
      subst htok
      rw [← hr]
      have hd1 : d1.all (·.isDigit) = true := by
        have := takeDigits_fst_all cs
        rw [heq] at this
        exact this
      have hd2 : d2.all (·.isDigit) = true := by
        have := takeDigits_fst_all r2
        rw [heq2] at this
        exact this
      have hd2ne : d2 ≠ [] := by
        intro hc
        exact hne2 (by rw [hc])
      refine ⟨d1, d2, rfl, hd1, hd2ne, hd2, ?_⟩
      have h1 : d1 ++ '.' :: r2 = cs := by
        have := takeDigits_append cs
        rw [heq] at this
        exact this
      have h2 : d2 ++ r3 = r2 := by
        have := takeDigits_append r2
        rw [heq2] at this
        exact this
      rw [← h1, ← h2]
      simp
  case _ => simp at h

theorem matchInt_parts {allowSign : Bool} {cs tok r : List Char}
    (h : matchInt allowSign cs = some (tok, r)) :
    (∃ c d, tok = c :: d ∧ (c == '-' || c == '+') = true ∧ d ≠ [] ∧
        d.all (·.isDigit) = true ∧ tok ++ r = cs) ∨
      (tok ≠ [] ∧ tok.all (·.isDigit) = true ∧ tok ++ r = cs) := by
  unfold matchInt at h
  split at h
  case _ => simp at h
  case _ c rest =>
    split at h
    case _ hsign =>
      split at h
      case _ => simp at h
      case _ d r' hne2 heq =>
        simp only [Option.some.injEq, Prod.mk.injEq] at h
        obtain ⟨htok, hr⟩ := h
        subst htok
        rw [← hr]
        rw [Bool.and_eq_true] at hsign
        have hd : d.all (·.isDigit) = true := by
          have := takeDigits_fst_all rest
          rw [heq] at this
          exact this
        have happ : d ++ r' = rest := by
          have := takeDigits_append rest
          rw [heq] at this
          exact this
        refine Or.inl ⟨c, d, rfl, hsign.2, ?_, hd, by rw [List.cons_append, happ]⟩
        intro hc
        exact hne2 (by rw [hc])
    case _ =>
      split at h
      case _ => simp at h
      case _ d r' hne2 heq =>
        simp only [Option.some.injEq, Prod.mk.injEq] at h
        obtain ⟨htok, hr⟩ := h
        subst htok
        rw [← hr]
        have hd : d.all (·.isDigit) = true := by
          have := takeDigits_fst_all (c :: rest)
          rw [heq] at this
          exact this
        have happ : d ++ r' = c :: rest := by
          have := takeDigits_append (c :: rest)
          rw [heq] at this
          exact this
        refine Or.inr ⟨?_, hd, happ⟩
        intro hc
        exact hne2 (by rw [hc])

theorem matchFloat_parts {allowSign : Bool} {cs tok r : List Char}
    (h : matchFloat allowSign cs = some (tok, r)) :
    ∃ sgn d1 d2, tok = sgn ++ d1 ++ '.' :: d2 ∧
      (sgn = [] ∨ ∃ c, sgn = [c] ∧ (c == '-' || c == '+') = true) ∧
      d1.all (·.isDigit) = true ∧ d2 ≠ [] ∧ d2.all (·.isDigit) = true ∧
      tok ++ r = cs := by
  unfold matchFloat at h
  split at h
  case _ => simp at h
  case _ c rest =>
    split at h
    case _ hsign =>
      split at h
      case _ t r' heq =>
        simp only [Option.some.injEq, Prod.mk.injEq] at h
        obtain ⟨htok, hr⟩ := h
        subst htok
        rw [← hr]
        rw [Bool.and_eq_true] at hsign
        obtain ⟨d1, d2, ht, hd1, hd2ne, hd2, happ⟩ := matchFloatTail_parts heq
        subst ht
        refine ⟨[c], d1, d2, by simp, Or.inr ⟨c, rfl, hsign.2⟩, hd1, hd2ne, hd2, ?_⟩
        rw [List.cons_append, happ]
      case _ => simp at h
    case _ =>
      obtain ⟨d1, d2, ht, hd1, hd2ne, hd2, happ⟩ := matchFloatTail_parts h
      subst ht
      exact ⟨[], d1, d2, by simp, Or.inl rfl, hd1, hd2ne, hd2, happ⟩

theorem tryMatch_append {mf ms : Bool} {cs tok r : List Char}
    (h : tryMatch mf ms cs = some (tok, r)) : tok ++ r = cs := by
  unfold tryMatch at h
  split at h
  · split at h
    case _ p heq =>
      obtain ⟨t, r'⟩ := p
      simp only [Option.some.injEq, Prod.mk.injEq] at h
      obtain ⟨htok, hr⟩ := h
      subst htok
      subst hr
      obtain ⟨-, -, -, -, -, -, -, -, happ⟩ := matchFloat_parts heq
      exact happ
    case _ =>
      rcases matchInt_parts h with ⟨-, -, -, -, -, -, happ⟩ | ⟨-, -, happ⟩
      · exact happ
      · exact happ
  · rcases matchInt_parts h with ⟨-, -, -, -, -, -, happ⟩ | ⟨-, -, happ⟩
    · exact happ
    · exact happ

theorem digit_not_sign {c : Char} (h : c.isDigit = true) :
    (c == '-' || c == '+') = false := by
  rcases hb1 : c == '-' with _ | _
  · rcases hb2 : c == '+' with _ | _
    · rfl
    · have hc : c = '+' := eq_of_beq hb2
      subst hc
      exact absurd h (by decide)
  · have hc : c = '-' := eq_of_beq hb1
    subst hc
    exact absurd h (by decide)

theorem stripSign_sign {c : Char} {rest : List Char}
    (h : (c == '-' || c == '+') = true) : stripSign (c :: rest) = rest := by
  show (if (c == '-' || c == '+') = true then rest else c :: rest) = rest
  rw [if_pos h]

theorem isUnsignedIntToken_parts {d : List Char} (hne : d ≠ [])
    (hd : d.all (·.isDigit) = true) : isUnsignedIntToken d = true := by
  unfold isUnsignedIntToken
  rw [hd]
  cases d with
  | nil => exact absurd rfl hne
  | cons _ _ => rfl

theorem isSignedFloatToken_of_strip {tok d1 d2 : List Char}
    (hs : stripSign tok = d1 ++ '.' :: d2) (hd1 : d1.all (·.isDigit) = true)
    (hd2ne : d2 ≠ []) (hd2 : d2.all (·.isDigit) = true) :
    isSignedFloatToken tok = true := by
  unfold isSignedFloatToken
  rw [hs, dropWhile_append_of_all _ hd1, List.dropWhile_cons_of_neg (by decide)]
  show (!d2.isEmpty && d2.all (·.isDigit)) = true
  rw [hd2]
  cases d2 with
  | nil => exact absurd rfl hd2ne
  | cons _ _ => rfl

theorem stripSign_float_body {d1 d2 : List Char} (hd1 : d1.all (·.isDigit) = true) :
    stripSign (d1 ++ '.' :: d2) = d1 ++ '.' :: d2 := by
  cases d1 with
  | nil =>
      show (if ('.' == '-' || '.' == '+') = true then d2 else '.' :: d2) = '.' :: d2
      rw [if_neg (by decide)]
  | cons c0 d1x =>
      have hc0 : c0.isDigit = true := by
        rw [List.all_cons, Bool.and_eq_true] at hd1
        exact hd1.1
      show (if (c0 == '-' || c0 == '+') = true then d1x ++ '.' :: d2
          else c0 :: (d1x ++ '.' :: d2)) = c0 :: (d1x ++ '.' :: d2)
      rw [if_neg (by simp [digit_not_sign hc0])]

theorem matchInt_false_parts {cs tok r : List Char}
    (h : matchInt false cs = some (tok, r)) :
    tok ≠ [] ∧ tok.all (·.isDigit) = true ∧ tok ++ r = cs := by
  unfold matchInt at h
  split at h
  case _ => simp at h
  case _ c rest =>
    rw [if_neg (by simp)] at h
    split at h
    case _ => simp at h
    case _ d r' hne2 heq =>
      simp only [Option.some.injEq, Prod.mk.injEq] at h
      obtain ⟨htok, hr⟩ := h
      subst htok
      rw [← hr]
      have hd : d.all (·.isDigit) = true := by
        have := takeDigits_fst_all (c :: rest)
        rw [heq] at this
        exact this
      have happ : d ++ r' = c :: rest := by
        have := takeDigits_append (c :: rest)
        rw [heq] at this
        exact this
      refine ⟨?_, hd, happ⟩
      intro hc
      exact hne2 (by rw [hc])

theorem tryMatch_shape {cs tok r : List Char}
    (h : tryMatch true true cs = some (tok, r)) :
    isSignedFloatToken tok = true ∨ isUnsignedIntToken tok = true := by
  unfold tryMatch at h
  rw [if_pos rfl] at h
  split at h
  case _ p heq =>
    obtain ⟨t, r'⟩ := p
    simp only [Option.some.injEq, Prod.mk.injEq] at h
    obtain ⟨htok, hr⟩ := h
    subst htok
    obtain ⟨sgn, d1, d2, ht, hsgn, hd1, hd2ne, hd2, -⟩ := matchFloat_parts heq
    subst ht
    left
    rcases hsgn with rfl | ⟨c, rfl, hc⟩
    · refine isSignedFloatToken_of_strip ?_ hd1 hd2ne hd2
      show stripSign (d1 ++ '.' :: d2) = d1 ++ '.' :: d2
      exact stripSign_float_body hd1
    · refine isSignedFloatToken_of_strip ?_ hd1 hd2ne hd2
      show stripSign (c :: (d1 ++ '.' :: d2)) = d1 ++ '.' :: d2
      exact stripSign_sign hc
  case _ =>
    obtain ⟨hne, hall, -⟩ := matchInt_false_parts h
    exact Or.inr (isUnsignedIntToken_parts hne hall)

theorem scanTokensGo_fuel {mf ms : Bool} :
    ∀ (fuel : Nat) (cs : List Char), cs.length ≤ fuel →
      scanTokensGo mf ms fuel cs = scanTokensGo mf ms cs.length cs := by
  intro fuel
  induction fuel using Nat.strong_induction_on with
  | _ fuel ih =>
      intro cs hcs
      rcases fuel with _ | fuel
      · have hnil : cs = [] := List.eq_nil_of_length_eq_zero (Nat.le_zero.mp hcs)
        subst hnil
        rfl
      · rcases cs with _ | ⟨c, rest⟩
        · rfl
        · have hrest : rest.length ≤ fuel := by
            simp at hcs
            omega
          rcases htm : tryMatch mf ms (c :: rest) with _ | ⟨tok, r⟩
          · have hstep1 : scanTokensGo mf ms (fuel + 1) (c :: rest) =
                scanTokensGo mf ms fuel rest := by
              show (match tryMatch mf ms (c :: rest) with
                | some (tok, r) => tok :: scanTokensGo mf ms fuel r
                | none => scanTokensGo mf ms fuel rest) = _
              rw [htm]
            have hstep2 : scanTokensGo mf ms ((c :: rest).length) (c :: rest) =
                scanTokensGo mf ms rest.length rest := by
              show (match tryMatch mf ms (c :: rest) with
                | some (tok, r) => tok :: scanTokensGo mf ms rest.length r
                | none => scanTokensGo mf ms rest.length rest) = _
              rw [htm]
            rw [hstep1, hstep2]
            exact ih fuel (Nat.lt_succ_self fuel) rest hrest
          · have hr : r.length < rest.length + 1 := by
              simpa using tryMatch_length htm
            have hstep1 : scanTokensGo mf ms (fuel + 1) (c :: rest) =
                tok :: scanTokensGo mf ms fuel r := by
              show (match tryMatch mf ms (c :: rest) with
                | some (tok, r) => tok :: scanTokensGo mf ms fuel r
                | none => scanTokensGo mf ms fuel rest) = _
              rw [htm]
            have hstep2 : scanTokensGo mf ms ((c :: rest).length) (c :: rest) =
                tok :: scanTokensGo mf ms rest.length r := by
              show (match tryMatch mf ms (c :: rest) with
                | some (tok, r) => tok :: scanTokensGo mf ms rest.length r
                | none => scanTokensGo mf ms rest.length rest) = _
              rw [htm]
            rw [hstep1, hstep2]
            have h1 : scanTokensGo mf ms fuel r = scanTokensGo mf ms r.length r :=
              ih fuel (Nat.lt_succ_self fuel) r (by omega)
            have h2 : scanTokensGo mf ms rest.length r =
                scanTokensGo mf ms r.length r :=
              ih rest.length (by omega) r (by omega)
            rw [h1, h2]

theorem scanTokens_cons_some {mf ms : Bool} {c : Char} {rest tok r : List Char}
    (htm : tryMatch mf ms (c :: rest) = some (tok, r)) :
    scanTokens mf ms (c :: rest) = tok :: scanTokens mf ms r := by
  show scanTokensGo mf ms ((c :: rest).length) (c :: rest) = _
  have hstep : scanTokensGo mf ms ((c :: rest).length) (c :: rest) =
      tok :: scanTokensGo mf ms rest.length r := by
    show (match tryMatch mf ms (c :: rest) with
      | some (tok, r) => tok :: scanTokensGo mf ms rest.length r
      | none => scanTokensGo mf ms rest.length rest) = _
    rw [htm]
  rw [hstep]
  have hr : r.length ≤ rest.length := by
    have := tryMatch_length htm
    simp at this
    omega
  rw [scanTokensGo_fuel rest.length r hr]
  rfl

theorem scanTokens_cons_none {mf ms : Bool} {c : Char} {rest : List Char}
    (htm : tryMatch mf ms (c :: rest) = none) :
    scanTokens mf ms (c :: rest) = scanTokens mf ms rest := by
  show scanTokensGo mf ms ((c :: rest).length) (c :: rest) = _
  have hstep : scanTokensGo mf ms ((c :: rest).length) (c :: rest) =
      scanTokensGo mf ms rest.length rest := by
    show (match tryMatch mf ms (c :: rest) with
      | some (tok, r) => tok :: scanTokensGo mf ms rest.length r
      | none => scanTokensGo mf ms rest.length rest) = _
    rw [htm]
  rw [hstep]
  rfl

theorem tryMatch_token_has_digit {mf ms : Bool} {cs tok r : List Char}
    (h : tryMatch mf ms cs = some (tok, r)) : ∃ c ∈ tok, c.isDigit = true := by
  unfold tryMatch at h
  split at h
  · split at h
    case _ p heq =>
      obtain ⟨t, r'⟩ := p
      simp only [Option.some.injEq, Prod.mk.injEq] at h
      obtain ⟨htok, -⟩ := h
      subst htok
      obtain ⟨sgn, d1, d2, ht, -, -, hd2ne, hd2, -⟩ := matchFloat_parts heq
      subst ht
      rcases d2 with _ | ⟨c2, d2x⟩
      · exact absurd rfl hd2ne
      · refine ⟨c2, by simp, ?_⟩
        rw [List.all_cons, Bool.and_eq_true] at hd2
        exact hd2.1
    case _ =>
      obtain ⟨hne, hall, -⟩ := matchInt_false_parts h
      rcases tok with _ | ⟨c2, tokx⟩
      · exact absurd rfl hne
      · refine ⟨c2, by simp, ?_⟩
        rw [List.all_cons, Bool.and_eq_true] at hall
        exact hall.1
  · rcases matchInt_parts h with ⟨c, d, ht, -, hdne, hd, -⟩ | ⟨hne, hall, -⟩
    · subst ht
      rcases d with _ | ⟨c2, dx⟩
      · exact absurd rfl hdne
      · refine ⟨c2, by simp, ?_⟩
        rw [List.all_cons, Bool.and_eq_true] at hd
        exact hd.1
    · rcases tok with _ | ⟨c2, tokx⟩
      · exact absurd rfl hne
      · refine ⟨c2, by simp, ?_⟩
        rw [List.all_cons, Bool.and_eq_true] at hall
        exact hall.1

theorem tryMatch_none_of_nodigit {mf ms : Bool} {cs : List Char}
    (h : ∀ c ∈ cs, c.isDigit = false) : tryMatch mf ms cs = none := by
  rcases htm : tryMatch mf ms cs with _ | ⟨tok, r⟩
  · rfl
  · exfalso
    have happ := tryMatch_append htm
    obtain ⟨c2, hc2mem, hc2dig⟩ := tryMatch_token_has_digit htm
    have hmem : c2 ∈ cs := by
      rw [← happ]
      exact List.mem_append_left _ hc2mem
    rw [h c2 hmem] at hc2dig
    exact Bool.false_ne_true hc2dig

theorem matchInt_false_some_of_digit {c : Char} {rest : List Char}
    (h : c.isDigit = true) :
    matchInt false (c :: rest) =
      some (c :: (takeDigits rest).1, (takeDigits rest).2) := by
  have ht : takeDigits (c :: rest) =
      (c :: (takeDigits rest).1, (takeDigits rest).2) := by
    show (if c.isDigit = true then (c :: (takeDigits rest).1, (takeDigits rest).2)
        else ([], c :: rest)) = _
    rw [if_pos h]
  simp [matchInt, ht]

theorem tryMatch_ne_none_of_digit {c : Char} {rest : List Char}
    (h : c.isDigit = true) : tryMatch true true (c :: rest) ≠ none := by
  unfold tryMatch
  rw [if_pos rfl]
  rcases hmf : matchFloat true (c :: rest) with _ | p
  · show matchInt false (c :: rest) ≠ none
    rw [matchInt_false_some_of_digit h]
    simp
  · simp

theorem interleave_cons_cons (g t : List Char) (gs ts : List (List Char)) :
    interleave (g :: gs) (t :: ts) = g ++ t ++ interleave gs ts := by
  cases gs with
  | nil => rfl
  | cons g1 gsx => rfl

theorem interleave_cons_head {gs ts : List (List Char)} (c : Char) (g0 : List Char)
    (h : gs.length = ts.length) :
    interleave ((c :: g0) :: gs) ts = c :: interleave (g0 :: gs) ts := by
  cases ts with
  | nil =>
      have hgs : gs = [] := List.eq_nil_of_length_eq_zero h
      subst hgs
      rfl
  | cons t tsx =>
      rw [interleave_cons_cons (c :: g0) t gs tsx, interleave_cons_cons g0 t gs tsx]
      simp

theorem scanTokens_shape_aux :
    ∀ (n : Nat) (cs : List Char), cs.length ≤ n →
      ∀ tok ∈ scanTokens true true cs,
        isSignedFloatToken tok = true ∨ isUnsignedIntToken tok = true := by
  intro n
  induction n with
  | zero =>
      intro cs hcs tok htok
      have hnil : cs = [] := List.eq_nil_of_length_eq_zero (Nat.le_zero.mp hcs)
      subst hnil
      simp [scanTokens, scanTokensGo] at htok
  | succ n ih =>
      intro cs hcs tok htok
      rcases cs with _ | ⟨c, rest⟩
      · simp [scanTokens, scanTokensGo] at htok
      · rcases htm : tryMatch true true (c :: rest) with _ | ⟨t, r⟩
        · rw [scanTokens_cons_none htm] at htok
          refine ih rest ?_ tok htok
          simp at hcs
          omega
        · rw [scanTokens_cons_some htm] at htok
          rcases List.mem_cons.mp htok with rfl | htok2
          · exact tryMatch_shape htm
          · have hr : r.length ≤ n := by
              have h1 := tryMatch_length htm
              simp at h1 hcs
              omega
            exact ih r hr tok htok2

theorem scanTokens_gaps_aux :
    ∀ (n : Nat) (cs : List Char), cs.length ≤ n →
      ∃ gaps : List (List Char),
        gaps.length = (scanTokens true true cs).length + 1 ∧
        interleave gaps (scanTokens true true cs) = cs ∧
        ∀ g ∈ gaps, ∀ ch ∈ g, ch.isDigit = false := by
  intro n
  induction n with
  | zero =>
      intro cs hcs
      have hnil : cs = [] := List.eq_nil_of_length_eq_zero (Nat.le_zero.mp hcs)
      subst hnil
      exact ⟨[[]], rfl, rfl, by simp⟩
  | succ n ih =>
      intro cs hcs
      rcases cs with _ | ⟨c, rest⟩
      · exact ⟨[[]], rfl, rfl, by simp⟩
      · rcases htm : tryMatch true true (c :: rest) with _ | ⟨t, r⟩
        · obtain ⟨gaps, hlen, hint, hnd⟩ := ih rest (by simp at hcs; omega)
          rw [scanTokens_cons_none htm]
          rcases gaps with _ | ⟨g0, gs⟩
          · simp at hlen
          · have hlen2 : gs.length = (scanTokens true true rest).length := by
              simpa using hlen
            have hcnd : c.isDigit = false := by
              rcases hv : c.isDigit with _ | _
              · rfl
              · exact absurd htm (tryMatch_ne_none_of_digit hv)
            refine ⟨(c :: g0) :: gs, by simpa using hlen, ?_, ?_⟩
            · rw [interleave_cons_head c g0 hlen2, hint]
            · intro g hg ch hch
              rcases List.mem_cons.mp hg with rfl | hg2
              · rcases List.mem_cons.mp hch with rfl | hch2
                · exact hcnd
                · exact hnd g0 (List.mem_cons_self g0 gs) ch hch2
              · exact hnd g (List.mem_cons_of_mem g0 hg2) ch hch
        · have hrle : r.length ≤ n := by
            have h1 := tryMatch_length htm
            simp at h1 hcs
            omega
          obtain ⟨gaps, hlen, hint, hnd⟩ := ih r hrle
          rw [scanTokens_cons_some htm]
          refine ⟨[] :: gaps, by simpa using hlen, ?_, ?_⟩
          · rw [interleave_cons_cons [] t gaps (scanTokens true true r), hint]
            simpa using tryMatch_append htm
          · intro g hg ch hch
            rcases List.mem_cons.mp hg with rfl | hg2
            · simp at hch
            · exact hnd g hg2 ch hch

theorem scanTokens_eq_nil_of_nodigit {cs : List Char}
    (h : ∀ c ∈ cs, c.isDigit = false) : scanTokens true true cs = [] := by
  induction cs with
  | nil => rfl
  | cons c rest ih =>
      rw [scanTokens_cons_none (tryMatch_none_of_nodigit h)]
      exact ih (fun ch hch => h ch (List.mem_cons_of_mem c hch))

/-- C8 counterexample: with both float and sign matching enabled the sign
binds only to the decimal alternative of the assembled pattern
`[-+]?\d*\.\d+|\d+`, so the integer in `"-5"` is scanned as the unsigned
token `5`, not as `-5` as the claim's reading would give. -/
theorem C8_counterexample :
    extract_numbers "-5" true true = [PyNumber.intVal 5] ∧
    extract_numbers "-5" true true ≠ [PyNumber.intVal (-5)] := by
  exact ⟨by decide, by decide⟩

/-- C8 (amended): with float and sign matching enabled the scanner returns,
left to right, disjoint tokens of the two alternatives of the assembled
pattern — an optionally signed decimal `[-+]?\d*\.\d+` or an unsigned
integer `\d+` (the sign binds only to the decimal alternative); the
characters outside the returned tokens contain no digits (no numeric token
is missed), a string yields the empty sequence exactly when it has no
digit, and each token is typed by its shape, with the decimal alternative
preferred at overlapping positions, as the concrete evaluations
(`-5` ↦ int 5, `+3` ↦ int 3, `-1.5` ↦ float −1.5, `12.5.6` ↦ floats
12.5 and 0.6) illustrate. -/
theorem C8_extract_numbers_scan :
    (∀ s : String, ∀ tok ∈ scanTokens true true s.data,
        isSignedFloatToken tok = true ∨ isUnsignedIntToken tok = true) ∧
    (∀ s : String, ∃ gaps : List (List Char),
        gaps.length = (scanTokens true true s.data).length + 1 ∧
        interleave gaps (scanTokens true true s.data) = s.data ∧
        ∀ g ∈ gaps, ∀ ch ∈ g, ch.isDigit = false) ∧
    (∀ s : String, extract_numbers s true true = [] ↔
        ∀ c ∈ s.data, c.isDigit = false) ∧
    (extract_numbers "-5" true true = [PyNumber.intVal 5] ∧
     extract_numbers "+3" true true = [PyNumber.intVal 3] ∧
     extract_numbers "-1.5" true true = [PyNumber.floatVal (-3/2)] ∧
     extract_numbers "12.5.6" true true =
       [PyNumber.floatVal (25/2), PyNumber.floatVal (3/5)]) := by
  have hv15 : tokenValue ['-','1','.','5'] = PyNumber.floatVal (-3/2) := by
    have hc : (['-','1','.','5'].contains '.') = true := by decide
    have h1 : List.dropWhile (fun x => x.isDigit) ['1','.','5'] = ['.','5'] := rfl
    have h2 : List.takeWhile (fun x => x.isDigit) ['1','.','5'] = ['1'] := rfl
    have h3 : digitsToNat ['1'] = 1 := by decide
    have h4 : digitsToNat ['5'] = 5 := by decide
    simp [tokenValue, hc, floatTokenToRat, floatMagnitude, h1, h2, h3, h4]
    norm_num
  have hv125 : tokenValue ['1','2','.','5'] = PyNumber.floatVal (25/2) := by
    have hc : (['1','2','.','5'].contains '.') = true := by decide
    have h1 : List.dropWhile (fun x => x.isDigit) ['1','2','.','5'] = ['.','5'] := rfl
    have h2 : List.takeWhile (fun x => x.isDigit) ['1','2','.','5'] = ['1','2'] := rfl
    have h3 : digitsToNat ['1','2'] = 12 := by decide
    have h4 : digitsToNat ['5'] = 5 := by decide
    simp [tokenValue, hc, floatTokenToRat, floatMagnitude, h1, h2, h3, h4]
    norm_num
  have hv6 : tokenValue ['.','6'] = PyNumber.floatVal (3/5) := by
    have hc : (['.','6'].contains '.') = true := by decide
    have h1 : List.dropWhile (fun x => x.isDigit) ['.','6'] = ['.','6'] := rfl
    have h2 : List.takeWhile (fun x => x.isDigit) ['.','6'] = [] := rfl
    have h3 : digitsToNat ([] : List Char) = 0 := by decide
    have h4 : digitsToNat ['6'] = 6 := by decide
    simp [tokenValue, hc, floatTokenToRat, floatMagnitude, h1, h2, h3, h4]
    norm_num
  refine ⟨?_, ?_, ?_, by decide, by decide, ?_, ?_⟩
  · intro s
    exact scanTokens_shape_aux s.data.length s.data le_rfl
  · intro s
    exact scanTokens_gaps_aux s.data.length s.data le_rfl
  · intro s
    constructor
    · intro hempty c hc
      have hscan : scanTokens true true s.data = [] := by
        have hmap : (scanTokens true true s.data).map tokenValue = [] := hempty
        exact List.map_eq_nil_iff.mp hmap
      obtain ⟨gaps, hlen, hint, hnd⟩ := scanTokens_gaps_aux s.data.length s.data le_rfl
      rw [hscan] at hlen hint
      rcases gaps with _ | ⟨g0, gs⟩
      · simp at hlen
      · have hgs : gs = [] := by simpa using hlen
        subst hgs
        have hg0 : g0 = s.data := hint
        exact hnd g0 (List.mem_cons_self _ _) c (by rw [hg0]; exact hc)
    · intro hnod
      show (scanTokens true true s.data).map tokenValue = []
      rw [scanTokens_eq_nil_of_nodigit hnod]
      rfl
  · show (scanTokens true true "-1.5".data).map tokenValue = _
    have hscan : scanTokens true true "-1.5".data = [['-','1','.','5']] := by decide
    rw [hscan]
    show [tokenValue ['-','1','.','5']] = _
    rw [hv15]
  · show (scanTokens true true "12.5.6".data).map tokenValue = _
    have hscan : scanTokens true true "12.5.6".data =
        [['1','2','.','5'], ['.','6']] := by decide
    rw [hscan]
    show [tokenValue ['1','2','.','5'], tokenValue ['.','6']] = _
    rw [hv125, hv6]

/-- C8 witness: the quantified parts of `C8_extract_numbers_scan` applied
to the concrete strings `"a-12b"` (one unsigned integer token) and
`"no digits here!"` (empty result). -/
theorem C8_witness :
    (['1','2'] ∈ scanTokens true true "a-12b".data ∧
      (isSignedFloatToken ['1','2'] = true ∨ isUnsignedIntToken ['1','2'] = true)) ∧
    (∀ c ∈ "no digits here!".data, c.isDigit = false) ∧
    extract_numbers "no digits here!" true true = [] := by
  refine ⟨⟨by decide, ?_⟩, by decide, ?_⟩
  · exact C8_extract_numbers_scan.1 "a-12b" ['1','2'] (by decide)
  · exact (C8_extract_numbers_scan.2.2.1 "no digits here!").mpr (by decide)

end BedrockUpdater
